import Mathlib

/-!
# Spynput: the device ring of `logger.c`

A shallow embedding of the circular doubly linked list of `struct device_entry`
kept by `logger.c`, of the two loops that work on it (the event loop of `main`
and the manager thread `manage_devices`) and of the start-up enumeration
`store_entries`.

Memory is a partial map from addresses to entries; a `NULL` pointer is `none`.
Every operation returns `none` when the C code would dereference `NULL` or a
freed entry, would spin forever, or would leave through `exit`.
-/

namespace Spynput

/-! ## Flags (`logger.c`, lines 13-19) -/

def DELETION_MARK : Nat := 0x01
def NEXT_IS_LOCKED : Nat := 0x02
def APPEND_MARK : Nat := 0x04
def APPEND_CONFIRM : Nat := 0x08
def ALL : Nat := 0xff

/-- The C expression `~mask` converted to the 32-bit `unsigned` of `flags`. -/
def bnot32 (mask : Nat) : Nat := 0xFFFFFFFF ^^^ mask

/-- The value of `EV_SYN` in `linux/input-event-codes.h`. -/
def EV_SYN : Nat := 0

/-! ## Entries and memory (`logger.c`, lines 21-30) -/

structure device_entry where
  dev : Option Nat
  fd : Int
  flags : Nat
  prev : Option Nat
  next : Option Nat
deriving DecidableEq, Repr

/-- The heap of entries together with the global `root_entry`. -/
structure Mem where
  heap : Nat → Option device_entry
  root_entry : Option Nat

/-- The state at program start: nothing allocated, `root_entry = NULL`. -/
def Mem.empty : Mem := ⟨fun _ => none, none⟩

/-- Write a whole entry at address `a`. -/
def Mem.store (m : Mem) (a : Nat) (e : device_entry) : Mem :=
  { m with heap := fun x => if x = a then some e else m.heap x }

/-- The effect of `free(a)`: the address is no longer valid. -/
def Mem.release (m : Mem) (a : Nat) : Mem :=
  { m with heap := fun x => if x = a then none else m.heap x }

/-- The flags register of the entry at `a`, when there is one. -/
def Mem.flagsOf (m : Mem) (a : Nat) : Option Nat := (m.heap a).map (fun e => e.flags)

/-- The `next` link of the entry at `a`. -/
def Mem.nextOf (m : Mem) (a : Nat) : Option Nat := (m.heap a).bind (fun e => e.next)

/-- The `prev` link of the entry at `a`. -/
def Mem.prevOf (m : Mem) (a : Nat) : Option Nat := (m.heap a).bind (fun e => e.prev)

/-! ## `new_device_entry` and `free_device_entry` (lines 36-71) -/

/-- The entry written by `new_device_entry` when `malloc` returns `a`. -/
def new_device_entry (m : Mem) (a : Nat) : Mem :=
  m.store a { dev := none, fd := -1, flags := 0, prev := none, next := none }

/-- Lines 49-71. The release of the device handle and of the descriptor acts
outside the ring and is not part of the memory state. -/
def free_device_entry (m : Mem) : Option Nat → Option Mem
  | none => some m
  | some d =>
    match m.heap d with
    | none => none
    | some e =>
      -- if (dev == root_entry) root_entry = dev->next;
      let root1 : Option Nat := if m.root_entry = some d then e.next else m.root_entry
      -- if (dev->next == dev) root_entry = NULL;
      let root2 : Option Nat := if e.next = some d then none else root1
      let m2 : Mem := { m with root_entry := root2 }
      -- if (dev->next) dev->next->prev = dev->prev;
      let r3 : Option Mem :=
        match e.next with
        | none => some m2
        | some n =>
          match m2.heap n with
          | none => none
          | some en => some (m2.store n { en with prev := e.prev })
      match r3 with
      | none => none
      | some m3 =>
        match m3.heap d with
        | none => none
        | some e3 =>
          -- if (dev->prev) { dev->prev->next = dev->next;
          --                  dev->prev->flags &= ~NEXT_IS_LOCKED; }
          let r4 : Option Mem :=
            match e3.prev with
            | none => some m3
            | some p =>
              match m3.heap p with
              | none => none
              | some ep =>
                some (m3.store p { ep with next := e3.next,
                                           flags := ep.flags &&& bnot32 NEXT_IS_LOCKED })
          -- free(dev);
          match r4 with
          | none => none
          | some m4 => some (m4.release d)

/-! ## `check_capabilities` and `add_new_entry` (lines 74-154) -/

/-- The answers of libevdev to the five queries of `check_capabilities`. -/
structure Caps where
  ev_key : Bool
  key_a : Bool
  btn_left : Bool
  ev_abs : Bool
  abs_x : Bool
deriving DecidableEq, Repr

/-- Lines 74-94. -/
def check_capabilities (d : Caps) : Nat :=
  if d.ev_key && d.key_a then 1
  else if d.ev_key && d.btn_left then 1
  else if d.ev_abs && d.abs_x then 1
  else 0

/-- What the environment answers during one call of `add_new_entry`: the result
of `open`, the result of `libevdev_new_from_fd` with the handle it yields, the
capabilities of that handle, and the result of `malloc`. -/
structure Probe where
  fd : Int
  status : Int
  new_device : Nat
  caps : Caps
  malloc : Option Nat
deriving DecidableEq, Repr

/-- Line 133: `root_entry->prev->flags |= APPEND_MARK`. -/
def append_request (m : Mem) : Option Mem :=
  match m.root_entry with
  | none => none
  | some r =>
    match m.heap r with
    | none => none
    | some er =>
      match er.prev with
      | none => none
      | some t =>
        match m.heap t with
        | none => none
        | some et => some (m.store t { et with flags := et.flags ||| APPEND_MARK })

/-- Lines 134-142, for the new entry at `a`. The wait of line 134 ends only
when `APPEND_CONFIRM` is on the tail: without it the manager spins, and the
result is `none`. The entry `a` comes from `malloc`, so `new_entry->prev` read
back in lines 139 and 142 is the tail `t` stored in line 136. -/
def append_splice (m : Mem) (a : Nat) : Option Mem :=
  match m.root_entry with
  | none => none
  | some r =>
    match m.heap r with
    | none => none
    | some er =>
      match er.prev with
      | none => none
      | some t =>
        match m.heap t with
        | none => none
        | some et =>
          -- while (!(root_entry->prev->flags & APPEND_CONFIRM));
          if et.flags &&& APPEND_CONFIRM = 0 then none
          else
            match m.heap a with
            | none => none
            | some ea =>
              -- new_entry->prev = root_entry->prev; new_entry->next = root_entry;
              let m1 := m.store a { ea with prev := some t, next := some r }
              -- new_entry->prev->next = new_entry;
              match m1.heap t with
              | none => none
              | some et1 =>
                let m2 := m1.store t { et1 with next := some a }
                -- root_entry->prev = new_entry;
                match m2.heap r with
                | none => none
                | some er2 =>
                  let m3 := m2.store r { er2 with prev := some a }
                  -- new_entry->prev->flags &= ~(APPEND_MARK | APPEND_CONFIRM);
                  match m3.heap t with
                  | none => none
                  | some et3 =>
                    some (m3.store t
                      { et3 with flags := et3.flags &&& bnot32 (APPEND_MARK ||| APPEND_CONFIRM) })

/-- Lines 125-129: the new entry becomes the only entry. -/
def link_sole (m : Mem) (a : Nat) : Option Mem :=
  match m.heap a with
  | none => none
  | some ea => some { (m.store a { ea with prev := some a, next := some a }) with
                      root_entry := some a }

/-- Lines 125-144 run by one thread alone: request, wait, splice. -/
def link_entry (m : Mem) (a : Nat) : Option Mem :=
  match m.root_entry with
  | none => link_sole m a
  | some _ => (append_request m).bind (fun m1 => append_splice m1 a)

/-- Lines 97-154: the new memory and the returned status. -/
def add_new_entry (m : Mem) (p : Probe) : Option (Mem × Nat) :=
  if p.fd < 0 then some (m, 1)
  else if p.status < 0 then some (m, 2)
  else if check_capabilities p.caps ≠ 0 then
    match p.malloc with
    | none => some (m, 4)
    | some a =>
      let m1 := new_device_entry m a
      match m1.heap a with
      | none => none
      | some ea =>
        let m2 := m1.store a { ea with dev := some p.new_device, fd := p.fd }
        (link_entry m2 a).map (fun m3 => (m3, 0))
  else some (m, 3)

/-! ## `store_entries` (lines 157-182) -/

/-- A directory entry: its name and what the environment answers when
`add_new_entry` is called on it. -/
structure dirent where
  d_name : List Char
  probe : Probe
deriving DecidableEq, Repr

/-- The test `strncmp(s, "event", 5) == 0`. -/
def strncmp_event (s : List Char) : Bool := s.take 5 == ['e', 'v', 'e', 'n', 't']

/-- Line 172: `root_entry->prev->flags |= ALL`. -/
def mark_tail_all (m : Mem) : Option Mem :=
  match m.root_entry with
  | none => some m
  | some r =>
    match m.heap r with
    | none => none
    | some er =>
      match er.prev with
      | none => none
      | some t =>
        match m.heap t with
        | none => none
        | some et => some (m.store t { et with flags := et.flags ||| ALL })

/-- Line 177: `root_entry->prev->prev->flags = 0`. -/
def clear_before_tail (m : Mem) : Option Mem :=
  match m.root_entry with
  | none => some m
  | some r =>
    match m.heap r with
    | none => none
    | some er =>
      match er.prev with
      | none => none
      | some t =>
        match m.heap t with
        | none => none
        | some et =>
          match et.prev with
          | none => none
          | some q =>
            match m.heap q with
            | none => none
            | some eq => some (m.store q { eq with flags := 0 })

/-- The loop of lines 167-178 over the entries `readdir` yields. -/
def store_loop (m : Mem) : List dirent → Option (Mem × Nat)
  | [] => some (m, 0)
  | d :: rest =>
    if strncmp_event d.d_name then
      match mark_tail_all m with
      | none => none
      | some m1 =>
        match add_new_entry m1 d.probe with
        | none => none
        | some (m2, status) =>
          if status ≠ 0 ∧ status ≠ 3 then some (m2, status)
          else
            match clear_before_tail m2 with
            | none => none
            | some m3 => store_loop m3 rest
    else store_loop m rest

/-- Lines 157-182; `dir` is `none` when `opendir` fails. -/
def store_entries (m : Mem) (dir : Option (List dirent)) : Option (Mem × Nat) :=
  match dir with
  | none => some (m, 3)
  | some ds => store_loop m ds

/-! ## The manager's scan (`manage_devices`, lines 226-242) -/

/-- One pass through lines 230-242: the memory and the manager's
`current_entry` afterwards. -/
def manage_devices_scan (m : Mem) (current_entry : Option Nat) : Option (Mem × Option Nat) :=
  match current_entry with
  | none => some (m, m.root_entry)
  | some c =>
    match m.heap c with
    | none => none
    | some e =>
      let next_entry := e.next
      let r : Option Mem :=
        if e.flags &&& DELETION_MARK ≠ 0 then free_device_entry m (some c) else some m
      match r with
      | none => none
      | some m1 =>
        match next_entry with
        | some n => some (m1, some n)
        | none => some (m1, m1.root_entry)

/-! ## The event loop (`main`, lines 301-378) -/

/-- The results of `libevdev_next_event` that the `switch` of line 312 tells apart. -/
inductive ReadStatus where
  | Synced
  | Success
  | NoData
  | Disconnected
  | Unexpected
deriving DecidableEq, Repr

structure input_event where
  type : Nat
  code : Nat
  value : Int
deriving DecidableEq, Repr

/-- What the device yields in one pass of the loop: the status of the read of
line 312, the record `ev` after that read, and the record `ev` after the
catch-up read of line 316. -/
structure PollInput where
  status : ReadStatus
  ev : input_event
  sync_ev : input_event
deriving DecidableEq, Repr

/-- Lines 329-343, with `current_entry` at `c`: the memory and the cursor. -/
def mark_dead (m : Mem) (c : Nat) : Option (Mem × Option Nat) :=
  match m.heap c with
  | none => none
  | some e =>
    if e.next = some c then
      -- current_entry = NULL; root_entry->flags |= DELETION_MARK; root_entry = NULL;
      match m.root_entry with
      | none => none
      | some r =>
        match m.heap r with
        | none => none
        | some er =>
          some ({ (m.store r { er with flags := er.flags ||| DELETION_MARK }) with
                  root_entry := none }, none)
    else
      -- current_entry->prev->flags |= NEXT_IS_LOCKED;
      match e.prev with
      | none => none
      | some p =>
        match m.heap p with
        | none => none
        | some ep =>
          let m1 := m.store p { ep with flags := ep.flags ||| NEXT_IS_LOCKED }
          -- current_entry->flags |= DELETION_MARK;
          match m1.heap c with
          | none => none
          | some e1 => some (m1.store c { e1 with flags := e1.flags ||| DELETION_MARK }, some c)

/-- Lines 366-376, with `current_entry` at `c`: the memory and the cursor. -/
def poller_advance (m : Mem) (c : Nat) : Option (Mem × Option Nat) :=
  match m.heap c with
  | none => none
  | some e =>
    if e.flags &&& (NEXT_IS_LOCKED ||| APPEND_CONFIRM) = 0 then
      -- current_entry = current_entry->next;
      match e.next with
      | none => none
      | some n =>
        match m.heap n with
        | none => none
        | some en =>
          match en.prev with
          | none => none
          | some p =>
            match m.heap p with
            | none => none
            | some ep =>
              if ep.flags &&& APPEND_MARK ≠ 0 then
                some (m.store p { ep with flags := ep.flags ||| APPEND_CONFIRM }, some n)
              else some (m, some n)
    else if e.flags &&& APPEND_MARK ≠ 0 then
      some (m.store c { e with flags := e.flags ||| APPEND_CONFIRM }, some c)
    else some (m, some c)

/-- The outcome of one pass of the loop of `main`. -/
structure PollResult where
  mem : Mem
  cursor : Option Nat
  emitted : Option input_event

/-- One pass through lines 301-378. -/
def poller_step (m : Mem) (current_entry : Option Nat) (inp : PollInput) : Option PollResult :=
  match current_entry with
  | none => some ⟨m, m.root_entry, none⟩
  | some c =>
    match m.heap c with
    | none => none
    | some _ =>
      match inp.status with
      | .Unexpected => none
      | .Synced =>
        (poller_advance m c).map (fun r =>
          ⟨r.1, r.2, if inp.sync_ev.type ≠ EV_SYN then some inp.sync_ev else none⟩)
      | .Success =>
        (poller_advance m c).map (fun r =>
          ⟨r.1, r.2, if inp.ev.type ≠ EV_SYN then some inp.ev else none⟩)
      | .NoData =>
        -- skip = 1
        (poller_advance m c).map (fun r => ⟨r.1, r.2, none⟩)
      | .Disconnected =>
        -- skip = 1
        match mark_dead m c with
        | none => none
        | some (m1, none) => some ⟨m1, none, none⟩
        | some (m1, some c1) => (poller_advance m1 c1).map (fun r => ⟨r.1, r.2, none⟩)

/-! ## Sequences of registry operations -/

/-- The answer of the event loop to a pending request: the `APPEND_CONFIRM`
that line 372 or line 376 puts on the tail when it carries `APPEND_MARK`. -/
def poller_grant (m : Mem) : Option Mem :=
  match m.root_entry with
  | none => none
  | some r =>
    match m.heap r with
    | none => none
    | some er =>
      match er.prev with
      | none => none
      | some t =>
        match m.heap t with
        | none => none
        | some et =>
          if et.flags &&& APPEND_MARK ≠ 0 then
            some (m.store t { et with flags := et.flags ||| APPEND_CONFIRM })
          else some m

/-- Lines 114-144 for a device that passed the probe, `malloc` returning `a`;
on a non-empty list the wait of line 134 is ended by the event loop: line 133,
then the grant, then lines 134-142. -/
def insert_tail (m : Mem) (a dev : Nat) (fd : Int) : Option Mem :=
  let m1 := new_device_entry m a
  match m1.heap a with
  | none => none
  | some ea =>
    let m2 := m1.store a { ea with dev := some dev, fd := fd }
    match m2.root_entry with
    | none => link_sole m2 a
    | some _ =>
      ((append_request m2).bind poller_grant).bind (fun m3 => append_splice m3 a)

/-- The three operations on the registry. -/
inductive Op where
  | insert_tail (a dev : Nat) (fd : Int)
  | mark_dead (c : Nat)
  | reclaim (c : Nat)
deriving DecidableEq, Repr

/-- One operation. `malloc` never returns an address in use, and the manager
frees only an entry that carries `DELETION_MARK` (line 235). -/
def step (m : Mem) : Op → Option Mem
  | .insert_tail a dev fd =>
    match m.heap a with
    | some _ => none
    | none => insert_tail m a dev fd
  | .mark_dead c => (mark_dead m c).map (fun r => r.1)
  | .reclaim c =>
    match m.heap c with
    | none => none
    | some e =>
      if e.flags &&& DELETION_MARK ≠ 0 then free_device_entry m (some c) else none

/-- A sequence of operations, left to right. -/
def run (m : Mem) : List Op → Option Mem
  | [] => some m
  | op :: rest => (step m op).bind (fun m1 => run m1 rest)

/-! ## Rings -/

/-- The memory `m` holds the ring `l`: `root_entry` is the head of `l` (`NULL`
when `l` is empty), the entries of `l` are distinct and allocated, each one's
`next` is its successor in `l` and each one's `prev` its predecessor, both
taken cyclically. -/
def IsRing (m : Mem) (l : List Nat) : Prop :=
  l.Nodup ∧ m.root_entry = l.head? ∧
  ∀ i a, l[i]? = some a → ∃ e, m.heap a = some e ∧
    e.next = l[if i + 1 = l.length then 0 else i + 1]? ∧
    e.prev = l[if i = 0 then l.length - 1 else i - 1]?

/-- The first `k` entries met from `cur` by following `next`. -/
def follow (m : Mem) : Option Nat → Nat → List Nat
  | _, 0 => []
  | none, _ + 1 => []
  | some a, k + 1 => a :: follow m (m.nextOf a) k

/-- Every allocated entry has both links set, and they agree with its
neighbours: `e.next.prev == e` and `e.prev.next == e`. -/
def Linked (m : Mem) : Prop :=
  ∀ a e, m.heap a = some e → ∃ n p en ep, e.next = some n ∧ e.prev = some p ∧
    m.heap n = some en ∧ en.prev = some a ∧ m.heap p = some ep ∧ ep.next = some a

/-! ## Descriptions used in the statements and proofs -/

/-- The memories agree on `root_entry` and on the links of every entry. -/
def SameLinks (m m' : Mem) : Prop :=
  m'.root_entry = m.root_entry ∧
  ∀ x, (m'.heap x).map (fun e => (e.prev, e.next)) = (m.heap x).map (fun e => (e.prev, e.next))

/-- The memory after the splice of lines 136-142, entry by entry. -/
def spliced (m : Mem) (a r t : Nat) (x : Nat) : Option device_entry :=
  (m.heap x).map (fun e =>
    { e with
      prev := if x = r then some a else if x = a then some t else e.prev,
      next := if x = t then some a else if x = a then some r else e.next,
      flags := if x = t then e.flags &&& bnot32 (APPEND_MARK ||| APPEND_CONFIRM) else e.flags })

/-- The memory after `free_device_entry` on `d`, whose links are `n` and `p`,
entry by entry. -/
def unlinked (m : Mem) (d n p : Nat) (x : Nat) : Option device_entry :=
  if x = d then none
  else (m.heap x).map (fun e =>
    { e with
      prev := if x = n then some p else e.prev,
      next := if x = p then some n else e.next,
      flags := if x = p then e.flags &&& bnot32 NEXT_IS_LOCKED else e.flags })

/-- The operations that insert the entries `es` in order. -/
def inserts (dev : Nat → Nat) (fd : Nat → Int) (es : List Nat) : List Op :=
  es.map (fun a => Op.insert_tail a (dev a) (fd a))

/-- The flags of the entry at `x` after lines 339-340 with the cursor on `c`
and `c->prev == p`. -/
def marked_flags (c p x f : Nat) : Nat :=
  if x = c then (if x = p then f ||| NEXT_IS_LOCKED else f) ||| DELETION_MARK
  else if x = p then f ||| NEXT_IS_LOCKED else f

/-- The flags of the entry at `x` after a pass of the event loop that found the
cursor `c` disconnected, `c->prev == p`. -/
def polled_flags (c p x f : Nat) : Nat :=
  if x = c ∧ marked_flags c p x f &&& APPEND_MARK ≠ 0
    then marked_flags c p x f ||| APPEND_CONFIRM
    else marked_flags c p x f

/-- An executable test that the memory `m` holds the ring `l`. -/
def ring_ok (m : Mem) (l : List Nat) : Bool :=
  decide l.Nodup && decide (m.root_entry = l.head?) &&
  (List.range l.length).all (fun i =>
    match l[i]? with
    | none => false
    | some a =>
      match m.heap a with
      | none => false
      | some e =>
        decide (e.next = l[if i + 1 = l.length then 0 else i + 1]?) &&
        decide (e.prev = l[if i = 0 then l.length - 1 else i - 1]?))

/-- The ring `1, 2, 3` with all flags clear. -/
def ring123 : Mem :=
  ⟨fun a =>
    if a = 1 then some ⟨some 0, 0, 0, some 3, some 2⟩
    else if a = 2 then some ⟨some 0, 0, 0, some 1, some 3⟩
    else if a = 3 then some ⟨some 0, 0, 0, some 2, some 1⟩
    else none, some 1⟩

/-- The ring `1, 2, 3` with a request on the tail `3`, and a new entry at `4`
waiting to be linked. -/
def ring123_request : Mem :=
  ⟨fun a =>
    if a = 1 then some ⟨some 0, 0, 0, some 3, some 2⟩
    else if a = 2 then some ⟨some 0, 0, 0, some 1, some 3⟩
    else if a = 3 then some ⟨some 0, 0, APPEND_MARK, some 2, some 1⟩
    else if a = 4 then some ⟨some 7, 5, 0, none, none⟩
    else none, some 1⟩

/-- The ring `1, 2` after the event loop marked `2` dead from the cursor `2`:
`1` carries `NEXT_IS_LOCKED`, `2` carries `DELETION_MARK`. -/
def locked_pair : Mem :=
  ⟨fun a =>
    if a = 1 then some ⟨some 0, 0, NEXT_IS_LOCKED, some 2, some 2⟩
    else if a = 2 then some ⟨some 0, 0, DELETION_MARK, some 1, some 1⟩
    else none, some 1⟩

/-- A read that reports the device gone. -/
def disconnected : PollInput := ⟨ReadStatus.Disconnected, ⟨0, 0, 0⟩, ⟨0, 0, 0⟩⟩

/-- The memory after the event loop marked the only entry, `1`, dead: the
entry is self-linked, carries `DELETION_MARK`, and `root_entry` is `NULL`. -/
def orphan_dead : Mem :=
  ⟨fun a => if a = 1 then some ⟨some 0, 0, DELETION_MARK, some 1, some 1⟩ else none, none⟩

/-- A ring whose only entry, `1`, carries `DELETION_MARK`. -/
def sole_dead : Mem :=
  ⟨fun a => if a = 1 then some ⟨some 0, 0, DELETION_MARK, some 1, some 1⟩ else none, some 1⟩

/-- An event file `event<a>` whose device passes the probe, `malloc` returning `a`. -/
def admitted_file (a : Nat) : dirent :=
  ⟨['e', 'v', 'e', 'n', 't'] ++ Nat.toDigits 10 a,
    ⟨3, 0, 7, ⟨true, true, false, false, false⟩, some a⟩⟩

/-- An event file, `event20`, whose device the capability probe rejects. -/
def rejected_file : dirent :=
  ⟨['e', 'v', 'e', 'n', 't', '2', '0'], ⟨3, 0, 7, ⟨false, false, false, false, false⟩, none⟩⟩

/-- An event file, `event21`, that cannot be opened. -/
def unopenable_file : dirent :=
  ⟨['e', 'v', 'e', 'n', 't', '2', '1'], ⟨-1, 0, 0, ⟨false, false, false, false, false⟩, none⟩⟩

/-- The outcomes of one admission. -/
inductive Admission where
  | admitted
  | rejected
  | ResourceUnavailable
  | ProbeInitFailure
  | AllocationFailure
deriving DecidableEq, Repr

/-- The outcome that the answers `p` lead to: `open` fails, the probe cannot
attach, the capabilities are not those wanted, `malloc` fails, or the device
is admitted. -/
def admission (p : Probe) : Admission :=
  if p.fd < 0 then Admission.ResourceUnavailable
  else if p.status < 0 then Admission.ProbeInitFailure
  else if check_capabilities p.caps = 0 then Admission.rejected
  else
    match p.malloc with
    | none => Admission.AllocationFailure
    | some _ => Admission.admitted

/-- The outcomes other than admitted and rejected. -/
def Admission.fatal : Admission → Bool
  | Admission.admitted => false
  | Admission.rejected => false
  | _ => true

/-- The status `add_new_entry` returns on each outcome. -/
def Admission.status : Admission → Nat
  | Admission.admitted => 0
  | Admission.rejected => 3
  | Admission.ResourceUnavailable => 1
  | Admission.ProbeInitFailure => 2
  | Admission.AllocationFailure => 4

/-- The entries of the directory that are event files. -/
def candidates (ds : List dirent) : List dirent := ds.filter (fun d => strncmp_event d.d_name)

/-- The status of the first candidate whose outcome is fatal, 0 when none is. -/
def first_fatal_status : List dirent → Nat
  | [] => 0
  | d :: rest =>
    if (admission d.probe).fatal then (admission d.probe).status else first_fatal_status rest

/-- The address given to a candidate when it is admitted. -/
def admitted_addr (d : dirent) : Option Nat :=
  if admission d.probe = Admission.admitted then d.probe.malloc else none

/-- The addresses of the candidates admitted before the first fatal one. -/
def admitted_before_fatal : List dirent → List Nat
  | [] => []
  | d :: rest =>
    if (admission d.probe).fatal then []
    else
      match admitted_addr d with
      | some a => a :: admitted_before_fatal rest
      | none => admitted_before_fatal rest

/-- A directory: an admitted file, a rejected one, a file that is not an event
file, a second admitted file, a file that cannot be opened, a third admitted
file. -/
def sample_dir : List dirent :=
  [admitted_file 1, rejected_file, ⟨['m', 'i', 'c', 'e'], (admitted_file 9).probe⟩,
   admitted_file 2, unopenable_file, admitted_file 3]

/-- The invariant carried along a sequence of operations: all entries are
linked, and `root_entry` heads a ring (the empty one when it is `NULL`). -/
def RingInv (m : Mem) : Prop := Linked m ∧ ∃ l, IsRing m l

/-- A sequence with the three operations: two insertions, the removal of the
tail, a third insertion. -/
def sample_ops : List Op :=
  [Op.insert_tail 1 0 0, Op.insert_tail 2 0 0, Op.mark_dead 2, Op.reclaim 2,
   Op.insert_tail 3 0 0]

/-- The memory the sequence `sample_ops` ends in. -/
def sample_mem : Mem := (run Mem.empty sample_ops).getD Mem.empty

/-! ## Lemmas -/

/-! ### Memory writes and rings -/

@[simp] theorem store_heap (m : Mem) (a : Nat) (e : device_entry) (x : Nat) :
    (m.store a e).heap x = if x = a then some e else m.heap x := rfl

@[simp] theorem store_root (m : Mem) (a : Nat) (e : device_entry) :
    (m.store a e).root_entry = m.root_entry := rfl

@[simp] theorem release_heap (m : Mem) (a x : Nat) :
    (m.release a).heap x = if x = a then none else m.heap x := rfl

@[simp] theorem release_root (m : Mem) (a : Nat) :
    (m.release a).root_entry = m.root_entry := rfl

theorem SameLinks.refl (m : Mem) : SameLinks m m := ⟨rfl, fun _ => rfl⟩

theorem SameLinks.trans {m1 m2 m3 : Mem} (h12 : SameLinks m1 m2) (h23 : SameLinks m2 m3) :
    SameLinks m1 m3 :=
  ⟨h23.1.trans h12.1, fun x => (h23.2 x).trans (h12.2 x)⟩

theorem SameLinks.heap_some {m m' : Mem} (h : SameLinks m m') {x : Nat} {e : device_entry}
    (hx : m.heap x = some e) : ∃ e', m'.heap x = some e' ∧ e'.prev = e.prev ∧ e'.next = e.next := by
  have h2 := h.2 x
  rw [hx] at h2
  cases hx' : m'.heap x with
  | none => rw [hx'] at h2; simp at h2
  | some e' =>
    rw [hx'] at h2
    simp at h2
    exact ⟨e', rfl, h2.1, h2.2⟩

theorem SameLinks.store_flags (m : Mem) {x : Nat} {e : device_entry} (hx : m.heap x = some e)
    (f : Nat) : SameLinks m (m.store x { e with flags := f }) := by
  refine ⟨rfl, fun y => ?_⟩
  by_cases hy : y = x
  · subst hy; simp [hx]
  · simp [hy]

theorem IsRing.sameLinks {m m' : Mem} {l : List Nat} (h : IsRing m l) (hs : SameLinks m m') :
    IsRing m' l := by
  refine ⟨h.1, hs.1.trans h.2.1, fun i a hia => ?_⟩
  obtain ⟨e, he, hn, hp⟩ := h.2.2 i a hia
  obtain ⟨e', he', hp', hn'⟩ := hs.heap_some he
  exact ⟨e', he', hn'.trans hn, hp'.trans hp⟩

theorem IsRing.nil_iff (m : Mem) : IsRing m [] ↔ m.root_entry = none := by
  simp [IsRing]

theorem IsRing.mem_heap {m : Mem} {l : List Nat} (h : IsRing m l) {a : Nat} (ha : a ∈ l) :
    ∃ e, m.heap a = some e := by
  obtain ⟨i, hi, rfl⟩ := List.getElem_of_mem ha
  obtain ⟨e, he, _⟩ := h.2.2 i l[i] (List.getElem?_eq_getElem hi)
  exact ⟨e, he⟩

/-- Two positions of a duplicate-free list that hold the same entry are equal. -/
theorem idx_unique {l : List Nat} (hl : l.Nodup) {i j : Nat} {a : Nat}
    (hi : l[i]? = some a) (hj : l[j]? = some a) : i = j := by
  obtain ⟨hi', hia⟩ := List.getElem?_eq_some_iff.mp hi
  obtain ⟨hj', hja⟩ := List.getElem?_eq_some_iff.mp hj
  exact (List.Nodup.getElem_inj_iff hl).mp (hia.trans hja.symm)

/-- The head and the tail of a non-empty ring, as the code reads them. -/
theorem IsRing.root_tail {m : Mem} {l : List Nat} (h : IsRing m l) (hl : l ≠ []) :
    ∃ r t er et, l[0]? = some r ∧ l[l.length - 1]? = some t ∧ m.root_entry = some r ∧
      m.heap r = some er ∧ er.prev = some t ∧ m.heap t = some et ∧ et.next = some r := by
  have hlen : 0 < l.length := List.length_pos.mpr hl
  obtain ⟨r, h0⟩ : ∃ r, l[0]? = some r := ⟨l[0], List.getElem?_eq_getElem hlen⟩
  obtain ⟨t, ht⟩ : ∃ t, l[l.length - 1]? = some t :=
    ⟨l[l.length - 1], List.getElem?_eq_getElem (by omega)⟩
  obtain ⟨er, her, _, hp⟩ := h.2.2 0 _ h0
  obtain ⟨et, het, hn, _⟩ := h.2.2 (l.length - 1) _ ht
  refine ⟨r, t, er, et, h0, ht, ?_, her, ?_, het, ?_⟩
  · rw [h.2.1]
    cases l with
    | nil => simp at hl
    | cons x xs => simpa using h0
  · simpa [ht] using hp
  · have : l.length - 1 + 1 = l.length := by omega
    simpa [this, h0] using hn

/-! ### The splice -/

theorem append_splice_eq {m : Mem} {a r t : Nat} {er et ea : device_entry}
    (hroot : m.root_entry = some r) (hr : m.heap r = some er) (hrp : er.prev = some t)
    (ht : m.heap t = some et) (hc : et.flags &&& APPEND_CONFIRM ≠ 0)
    (ha : m.heap a = some ea) (har : a ≠ r) (hat : a ≠ t) :
    ∃ m', append_splice m a = some m' ∧ m'.root_entry = some r ∧
      ∀ x, m'.heap x = spliced m a r t x := by
  have hra : r ≠ a := fun h => har h.symm
  have hta : t ≠ a := fun h => hat h.symm
  by_cases htr : t = r
  · subst htr
    have : er = et := by rw [hr] at ht; exact Option.some.inj ht
    subst this
    refine ⟨_, by simp [append_splice, hroot, hr, hrp, hc, ha, hta, hat]; rfl, by simp [hroot], ?_⟩
    intro x
    by_cases hxt : x = t
    · subst hxt; simp [spliced, hr, hta]
    · by_cases hxa : x = a
      · subst hxa; simp [spliced, ha, hxt]
      · simp [spliced, hxt, hxa]
  · have hrt : r ≠ t := fun h => htr h.symm
    refine ⟨_, by simp [append_splice, hroot, hr, hrp, ht, hc, ha, hta, hat, hra, har, htr, hrt]; rfl,
      by simp [hroot], ?_⟩
    intro x
    by_cases hxt : x = t
    · subst hxt; simp [spliced, ht, hta, htr]
    · by_cases hxr : x = r
      · subst hxr; simp [spliced, hr, hra, hxt]
      · by_cases hxa : x = a
        · subst hxa; simp [spliced, ha, hxt, hxr]
        · simp [spliced, hxt, hxa, hxr]

theorem getElem?_snoc_lt (l : List Nat) (a : Nat) {i : Nat} (hi : i < l.length) :
    (l ++ [a])[i]? = l[i]? := List.getElem?_append_left hi

theorem getElem?_snoc_len (l : List Nat) (a : Nat) : (l ++ [a])[l.length]? = some a := by
  simp

/-- Splicing a fresh entry before the root of the ring `l` gives the ring `l ++ [a]`. -/
theorem IsRing.snoc {m m' : Mem} {l : List Nat} {a r t : Nat} {ea : device_entry}
    (h : IsRing m l) (h0 : l[0]? = some r) (ht : l[l.length - 1]? = some t) (ha : a ∉ l)
    (hea : m.heap a = some ea) (hroot : m'.root_entry = some r)
    (hheap : ∀ x, m'.heap x = spliced m a r t x) : IsRing m' (l ++ [a]) := by
  have hlen : 0 < l.length := by
    rcases Nat.eq_zero_or_pos l.length with h' | h'
    · rw [List.length_eq_zero] at h'; subst h'; simp at h0
    · exact h'
  have har : a ≠ r := fun e => ha (e ▸ List.getElem?_mem h0)
  have hat : a ≠ t := fun e => ha (e ▸ List.getElem?_mem ht)
  refine ⟨?_, ?_, fun i x hix => ?_⟩
  · exact List.Nodup.append h.1 (List.nodup_singleton a) (by simpa using ha)
  · rw [hroot]
    cases l with
    | nil => simp at hlen
    | cons y ys => simpa using h0.symm
  · have hi : i < l.length + 1 := by
      have := (List.getElem?_eq_some_iff.mp hix).1
      simpa using this
    rw [hheap x]
    simp only [List.length_append, List.length_singleton]
    by_cases hil : i < l.length
    · rw [getElem?_snoc_lt l a hil] at hix
      obtain ⟨e, he, hn, hp⟩ := h.2.2 i x hix
      have hxa : x ≠ a := fun e => ha (e ▸ List.getElem?_mem hix)
      have hxr : x = r ↔ i = 0 :=
        ⟨fun e => idx_unique h.1 hix (e ▸ h0), fun e => by subst e; rw [h0] at hix; exact (Option.some.inj hix).symm⟩
      have hxt : x = t ↔ i = l.length - 1 :=
        ⟨fun e => idx_unique h.1 hix (e ▸ ht), fun e => by subst e; rw [ht] at hix; exact (Option.some.inj hix).symm⟩
      refine ⟨_, by simp [spliced, he]; rfl, ?_, ?_⟩
      · by_cases hlast : i = l.length - 1
        · have e1 : i + 1 = l.length := by omega
          simp [hxt.mpr hlast, e1]
        · have e1 : ¬ i + 1 = l.length := by omega
          have e2 : i + 1 < l.length := by omega
          have e3 : ¬ i = l.length := by omega
          simp [mt hxt.mp hlast, hxa, e1, e3, getElem?_snoc_lt l a e2, hn]
      · by_cases hz : i = 0
        · simp [hxr.mpr hz, hz]
        · have e2 : i - 1 < l.length := by omega
          simp [mt hxr.mp hz, hxa, hz, getElem?_snoc_lt l a e2, hp]
    · have hil' : i = l.length := by omega
      subst hil'
      rw [getElem?_snoc_len] at hix
      have hxa : a = x := Option.some.inj hix
      subst hxa
      refine ⟨_, by simp [spliced, hea]; rfl, ?_, ?_⟩
      · simp [hat, getElem?_snoc_lt l a hlen, h0]
      · have e1 : l.length ≠ 0 := by omega
        have e2 : l.length - 1 < l.length := by omega
        simp [har, e1, getElem?_snoc_lt l a e2, ht]

/-! ### The unlink -/

theorem free_device_entry_eq {m : Mem} {d n p : Nat} {e en ep : device_entry}
    (hd : m.heap d = some e) (hn : e.next = some n) (hp : e.prev = some p)
    (hen : m.heap n = some en) (hep : m.heap p = some ep) :
    ∃ m', free_device_entry m (some d) = some m' ∧
      m'.root_entry = (if n = d then none
                       else if m.root_entry = some d then some n else m.root_entry) ∧
      ∀ x, m'.heap x = unlinked m d n p x := by
  by_cases hnd : n = d
  · subst hnd
    have : en = e := by rw [hen] at hd; exact Option.some.inj hd
    subst this
    by_cases hpn : p = n
    · subst hpn
      have : ep = en := by rw [hep] at hen; exact Option.some.inj hen
      subst this
      refine ⟨_, by simp [free_device_entry, hen, hn, hp]; rfl, by simp, ?_⟩
      intro x
      by_cases hx : x = p
      · subst hx; simp [unlinked]
      · simp [unlinked, hx]
    · have hnp : n ≠ p := fun h => hpn h.symm
      refine ⟨_, by simp [free_device_entry, hen, hn, hp, hep, hpn, hnp]; rfl, by simp, ?_⟩
      intro x
      by_cases hx : x = n
      · subst hx; simp [unlinked]
      · by_cases hxp : x = p
        · subst hxp; simp [unlinked, hx, hep]
        · simp [unlinked, hx, hxp]
  · have hdn : d ≠ n := fun h => hnd h.symm
    by_cases hpd : p = d
    · subst hpd
      have : ep = e := by rw [hep] at hd; exact Option.some.inj hd
      subst this
      refine ⟨_, by simp [free_device_entry, hd, hn, hp, hen, hnd, hdn]; rfl, ?_, ?_⟩
      · by_cases hr : m.root_entry = some p <;> simp [hr, hnd]
      · intro x
        by_cases hx : x = p
        · subst hx; simp [unlinked]
        · by_cases hxn : x = n
          · subst hxn; simp [unlinked, hx, hen]
          · simp [unlinked, hx, hxn]
    · have hdp : d ≠ p := fun h => hpd h.symm
      by_cases hpn : p = n
      · subst hpn
        have : ep = en := by rw [hep] at hen; exact Option.some.inj hen
        subst this
        refine ⟨_, by simp [free_device_entry, hd, hn, hp, hen, hnd, hdn]; rfl, ?_, ?_⟩
        · by_cases hr : m.root_entry = some d <;> simp [hr, hnd]
        · intro x
          by_cases hx : x = d
          · subst hx; simp [unlinked]
          · by_cases hxp : x = p
            · subst hxp; simp [unlinked, hx, hen]
            · simp [unlinked, hx, hxp]
      · have hnp : n ≠ p := fun h => hpn h.symm
        refine ⟨_, by simp [free_device_entry, hd, hn, hp, hen, hep, hnd, hdn, hpn, hnp, hpd, hdp]; rfl,
          ?_, ?_⟩
        · by_cases hr : m.root_entry = some d <;> simp [hr, hnd]
        · intro x
          by_cases hx : x = d
          · subst hx; simp [unlinked]
          · by_cases hxp : x = p
            · subst hxp; simp [unlinked, hx, hep, hpn]
            · by_cases hxn : x = n
              · subst hxn; simp [unlinked, hx, hxp, hen]
              · simp [unlinked, hx, hxp, hxn]

theorem entry_eq_iff {l : List Nat} (hl : l.Nodup) {i j : Nat} {x y : Nat}
    (hi : l[i]? = some x) (hj : l[j]? = some y) : x = y ↔ i = j :=
  ⟨fun e => idx_unique hl hi (e ▸ hj), fun e => by
    subst e; rw [hi] at hj; exact Option.some.inj hj⟩

/-- Unlinking the entry at position `k` of the ring `l` gives the ring `l.eraseIdx k`. -/
theorem IsRing.eraseIdx {m m' : Mem} {l : List Nat} {k d n p : Nat}
    (h : IsRing m l) (hk : l[k]? = some d)
    (hn : l[if k + 1 = l.length then 0 else k + 1]? = some n)
    (hp : l[if k = 0 then l.length - 1 else k - 1]? = some p)
    (hroot : m'.root_entry =
      if n = d then none else if m.root_entry = some d then some n else m.root_entry)
    (hheap : ∀ x, m'.heap x = unlinked m d n p x) : IsRing m' (l.eraseIdx k) := by
  have hkl : k < l.length := (List.getElem?_eq_some_iff.mp hk).1
  have hlen : (l.eraseIdx k).length = l.length - 1 := List.length_eraseIdx_of_lt hkl
  have hnd : n = d ↔ l.length = 1 := by
    rw [entry_eq_iff h.1 hn hk]
    split_ifs <;> omega
  refine ⟨List.Nodup.eraseIdx k h.1, ?_, fun i x hix => ?_⟩
  · rw [hroot, List.head?_eq_getElem?, List.getElem?_eraseIdx]
    have h0 : m.root_entry = l[0]? := by rw [h.2.1, List.head?_eq_getElem?]
    by_cases h1 : l.length = 1
    · have hk0 : k = 0 := by omega
      subst hk0
      rw [if_pos (hnd.mpr h1), if_neg (by omega)]
      exact (List.getElem?_eq_none (by omega)).symm
    · rw [if_neg (mt hnd.mp h1), h0]
      by_cases hk0 : k = 0
      · subst hk0
        rw [if_pos hk, if_neg (by omega), ← hn, if_neg (by omega)]
      · have hd0 : ¬ l[0]? = some d := fun e => hk0 (idx_unique h.1 hk e)
        rw [if_neg hd0, if_pos (by omega)]
  · rw [List.getElem?_eraseIdx] at hix
    obtain ⟨j, hj, hjx⟩ : ∃ j, j = (if i < k then i else i + 1) ∧ l[j]? = some x := by
      refine ⟨_, rfl, ?_⟩
      split_ifs at hix ⊢ <;> exact hix
    have hjl : j < l.length := (List.getElem?_eq_some_iff.mp hjx).1
    have hjk : j ≠ k := by split_ifs at hj <;> omega
    obtain ⟨e, he, hen, hep⟩ := h.2.2 j x hjx
    have hxd : x ≠ d := fun e => hjk ((entry_eq_iff h.1 hjx hk).mp e)
    have hxn := entry_eq_iff h.1 hjx hn
    have hxp := entry_eq_iff h.1 hjx hp
    obtain ⟨sk, hsk, hn'⟩ : ∃ sk, sk = (if k + 1 = l.length then 0 else k + 1) ∧
        l[sk]? = some n := ⟨_, rfl, hn⟩
    obtain ⟨pk, hpk, hp'⟩ : ∃ pk, pk = (if k = 0 then l.length - 1 else k - 1) ∧
        l[pk]? = some p := ⟨_, rfl, hp⟩
    obtain ⟨sj, hsj, hen'⟩ : ∃ sj, sj = (if j + 1 = l.length then 0 else j + 1) ∧
        e.next = l[sj]? := ⟨_, rfl, hen⟩
    obtain ⟨pj, hpj, hep'⟩ : ∃ pj, pj = (if j = 0 then l.length - 1 else j - 1) ∧
        e.prev = l[pj]? := ⟨_, rfl, hep⟩
    rw [← hpk] at hxp
    rw [← hsk] at hxn
    refine ⟨_, by rw [hheap x]; simp [unlinked, hxd, he]; rfl, ?_, ?_⟩
    · simp only [hlen]
      rw [List.getElem?_eraseIdx]
      by_cases hc : x = p
      · rw [if_pos hc, ← hn']
        have hjp := hxp.mp hc
        split_ifs at hj hsk hpk ⊢ <;> first | omega | (congr 1; first | done | omega)
      · rw [if_neg hc, hen']
        have hjp := mt hxp.mpr hc
        split_ifs at hj hsj hpk ⊢ <;> first | omega | (congr 1; first | done | omega)
    · simp only [hlen]
      rw [List.getElem?_eraseIdx]
      by_cases hc : x = n
      · rw [if_pos hc, ← hp']
        have hjn := hxn.mp hc
        split_ifs at hj hsk hpk ⊢ <;> first | omega | (congr 1; first | done | omega)
      · rw [if_neg hc, hep']
        have hjn := mt hxn.mpr hc
        split_ifs at hj hpj hsk ⊢ <;> first | omega | (congr 1; first | done | omega)

/-! ### Bits -/

theorem or_and_self_eq (f b : Nat) : (f ||| b) &&& b = b := by
  apply Nat.eq_of_testBit_eq
  intro i
  simp only [Nat.testBit_and, Nat.testBit_or]
  cases f.testBit i <;> cases b.testBit i <;> rfl

theorem or_and_ne_zero (f : Nat) {b c : Nat} (h : b &&& c ≠ 0) : (f ||| b) &&& c ≠ 0 := by
  intro h0
  apply h
  apply Nat.eq_of_testBit_eq
  intro i
  have := congrArg (fun n => Nat.testBit n i) h0
  simp [Nat.testBit_and, Nat.testBit_or] at this ⊢
  intro hb
  exact this (Or.inr hb)

theorem or_and_of_disjoint (f : Nat) {b c : Nat} (h : b &&& c = 0) :
    (f ||| b) &&& c = f &&& c := by
  apply Nat.eq_of_testBit_eq
  intro i
  have := congrArg (fun n => Nat.testBit n i) h
  simp only [Nat.testBit_and, Nat.testBit_or, Nat.zero_testBit] at this ⊢
  cases hf : f.testBit i <;> cases hb : b.testBit i <;> cases hc : c.testBit i <;> simp_all

theorem and_and_of_disjoint (f : Nat) {b c : Nat} (h : b &&& c = 0) :
    (f &&& b) &&& c = 0 := by
  rw [Nat.and_assoc, h, Nat.and_zero]

/-! ### Rings depend on the links of their own entries only -/

theorem IsRing.ring_congr {m m' : Mem} {l : List Nat} (h : IsRing m l)
    (hr : m'.root_entry = m.root_entry)
    (hh : ∀ x ∈ l, (m'.heap x).map (fun e => (e.prev, e.next)) =
      (m.heap x).map (fun e => (e.prev, e.next))) : IsRing m' l := by
  refine ⟨h.1, hr.trans h.2.1, fun i a hia => ?_⟩
  obtain ⟨e, he, hn, hp⟩ := h.2.2 i a hia
  have h2 := hh a (List.getElem?_mem hia)
  rw [he] at h2
  cases hx : m'.heap a with
  | none => rw [hx] at h2; simp at h2
  | some e' =>
    rw [hx] at h2
    simp at h2
    exact ⟨e', rfl, h2.2.trans hn, h2.1.trans hp⟩

theorem append_request_eq {m : Mem} {r t : Nat} {er et : device_entry}
    (hroot : m.root_entry = some r) (hr : m.heap r = some er) (hrp : er.prev = some t)
    (ht : m.heap t = some et) :
    append_request m = some (m.store t { et with flags := et.flags ||| APPEND_MARK }) := by
  simp [append_request, hroot, hr, hrp, ht]

theorem poller_grant_eq {m : Mem} {r t : Nat} {er et : device_entry}
    (hroot : m.root_entry = some r) (hr : m.heap r = some er) (hrp : er.prev = some t)
    (ht : m.heap t = some et) (hf : et.flags &&& APPEND_MARK ≠ 0) :
    poller_grant m = some (m.store t { et with flags := et.flags ||| APPEND_CONFIRM }) := by
  simp [poller_grant, hroot, hr, hrp, ht, hf]

/-- A flag write on an allocated entry leaves the root entry's `prev` readable. -/
theorem store_flags_heap {m : Mem} {t : Nat} {et : device_entry} (ht : m.heap t = some et)
    (f : Nat) {x : Nat} {e : device_entry} (hx : m.heap x = some e) :
    ∃ e', (m.store t { et with flags := f }).heap x = some e' ∧ e'.prev = e.prev ∧
      e'.next = e.next ∧ e'.dev = e.dev ∧ e'.fd = e.fd ∧ e'.flags = if x = t then f else e.flags := by
  by_cases hxt : x = t
  · subst hxt
    rw [hx] at ht
    cases ht
    exact ⟨{ et with flags := f }, by simp, rfl, rfl, rfl, rfl, by simp⟩
  · exact ⟨e, by simp [hxt, hx], rfl, rfl, rfl, rfl, by simp [hxt]⟩

/-- Insertion of a fresh entry into the ring `l` gives the ring `l ++ [a]`; no
entry outside `a`, the old tail and the root is written, and the flags of the
old tail lose `APPEND_MARK` and `APPEND_CONFIRM`. -/
theorem insert_tail_ring {m : Mem} {l : List Nat} {a : Nat} (dev : Nat) (fd : Int)
    (h : IsRing m l) (ha : m.heap a = none) :
    ∃ m', insert_tail m a dev fd = some m' ∧ IsRing m' (l ++ [a]) ∧
      (∀ x, x ∉ l → x ≠ a → m'.heap x = m.heap x) ∧
      (∃ ea, m'.heap a = some ea ∧ ea.dev = some dev ∧ ea.fd = fd ∧ ea.flags = 0) := by
  have hal : a ∉ l := fun hm => by
    obtain ⟨e, he⟩ := h.mem_heap hm
    rw [ha] at he
    cases he
  by_cases hl : l = []
  · subst hl
    have hroot : m.root_entry = none := (IsRing.nil_iff m).mp h
    refine ⟨_, by simp [insert_tail, new_device_entry, link_sole, hroot]; rfl, ?_, ?_, ?_⟩
    · refine ⟨by simp, by simp, fun i x hix => ?_⟩
      have hi : i = 0 := by
        have := (List.getElem?_eq_some_iff.mp hix).1
        simpa using this
      subst hi
      have hx : a = x := by simpa using hix
      subst hx
      exact ⟨{ dev := some dev, fd := fd, flags := 0, prev := some a, next := some a },
        by simp, by simp, by simp⟩
    · intro x _ hxa
      simp [hxa]
    · exact ⟨{ dev := some dev, fd := fd, flags := 0, prev := some a, next := some a },
        by simp, rfl, rfl, rfl⟩
  · obtain ⟨r, t, er, et, h0, hlast, hroot, hr, hrp, ht, _⟩ := h.root_tail hl
    have har : a ≠ r := fun e => hal (e ▸ List.getElem?_mem h0)
    have hat : a ≠ t := fun e => hal (e ▸ List.getElem?_mem hlast)
    have hra : r ≠ a := fun e => har e.symm
    have hta : t ≠ a := fun e => hat e.symm
    -- the memory once the entry is allocated and filled in
    obtain ⟨m2, hm2, hm2root, hm2a, hm2x⟩ : ∃ m2 : Mem,
        m2 = (new_device_entry m a).store a
          { dev := some dev, fd := fd, flags := 0, prev := none, next := none } ∧
        m2.root_entry = m.root_entry ∧
        m2.heap a = some { dev := some dev, fd := fd, flags := 0, prev := none, next := none } ∧
        ∀ x, x ≠ a → m2.heap x = m.heap x :=
      ⟨_, rfl, rfl, by simp, fun x hx => by simp [new_device_entry, hx]⟩
    have e1 : insert_tail m a dev fd =
        ((append_request m2).bind poller_grant).bind (fun m3 => append_splice m3 a) := by
      simp [insert_tail, new_device_entry, hroot, hm2]
    have hr2 : m2.heap r = some er := by rw [hm2x r hra, hr]
    have ht2 : m2.heap t = some et := by rw [hm2x t hta, ht]
    have hroot2 : m2.root_entry = some r := hm2root.trans hroot
    rw [e1, append_request_eq hroot2 hr2 hrp ht2]
    obtain ⟨er3, hr3, hrp3, _⟩ := store_flags_heap ht2 (et.flags ||| APPEND_MARK) hr2
    obtain ⟨et3, ht3, hp3, hn3, _, _, hf3⟩ :=
      store_flags_heap ht2 (et.flags ||| APPEND_MARK) ht2
    simp only [Option.some_bind]
    rw [poller_grant_eq (by simpa using hroot2) hr3 (hrp3.trans hrp) ht3
      (by rw [hf3, if_pos rfl, or_and_self_eq]; decide)]
    obtain ⟨er4, hr4, hrp4, _⟩ := store_flags_heap ht3 (et3.flags ||| APPEND_CONFIRM) hr3
    obtain ⟨et4, ht4, _, _, _, _, hf4⟩ := store_flags_heap ht3 (et3.flags ||| APPEND_CONFIRM) ht3
    simp only [Option.some_bind]
    have ha4 : ((m2.store t { et with flags := et.flags ||| APPEND_MARK }).store t
        { et3 with flags := et3.flags ||| APPEND_CONFIRM }).heap a =
        some { dev := some dev, fd := fd, flags := 0, prev := none, next := none } := by
      simp [hat, hm2a]
    obtain ⟨m', hm', hroot', hheap'⟩ := append_splice_eq (by simpa using hroot2) hr4
      (hrp4.trans (hrp3.trans hrp)) ht4
      (by rw [hf4, if_pos rfl, or_and_self_eq]; decide) ha4 har hat
    refine ⟨m', hm', ?_, ?_, ?_⟩
    · refine IsRing.snoc (IsRing.ring_congr h ?_ ?_) h0 hlast hal ha4 hroot' hheap'
      · simpa using hm2root
      · intro x hx
        have hxa : x ≠ a := fun e => hal (e ▸ hx)
        by_cases hxt : x = t
        · subst hxt
          simp only [store_heap, if_pos, Option.map_some']
          rw [← hm2x x hxa, ht2]
          simp [hp3, hn3]
        · simp [hxt, hm2x x hxa]
    · intro x hxl hxa
      have hxr : x ≠ r := fun e => hxl (e ▸ List.getElem?_mem h0)
      have hxt : x ≠ t := fun e => hxl (e ▸ List.getElem?_mem hlast)
      rw [hheap' x]
      simp [spliced, hxr, hxt, hxa, hm2x x hxa]
    · rw [hheap' a]
      exact ⟨_, by simp [spliced, hat, hm2a]; rfl, rfl, rfl, by simp [hat]⟩

/-! ### Sequences of insertions -/

theorem run_inserts (dev : Nat → Nat) (fd : Nat → Int) :
    ∀ (es : List Nat) (m : Mem) (l : List Nat), IsRing m l →
      (∀ a ∈ es, m.heap a = none) → es.Nodup →
      ∃ m', run m (inserts dev fd es) = some m' ∧ IsRing m' (l ++ es) ∧
        ∀ x, x ∉ l → x ∉ es → m'.heap x = m.heap x := by
  intro es
  induction es with
  | nil =>
    intro m l h _ _
    exact ⟨m, rfl, by simpa using h, fun _ _ _ => rfl⟩
  | cons a rest ih =>
    intro m l h hfresh hnd
    have ha : m.heap a = none := hfresh a (List.mem_cons_self a rest)
    obtain ⟨m1, hm1, hring1, hframe1, _⟩ := insert_tail_ring (dev a) (fd a) h ha
    have hnd' := List.nodup_cons.mp hnd
    have hfresh1 : ∀ b ∈ rest, m1.heap b = none := by
      intro b hb
      have hbm : m.heap b = none := hfresh b (List.mem_cons_of_mem a hb)
      have hbl : b ∉ l := fun hm => by
        obtain ⟨e, he⟩ := h.mem_heap hm
        rw [hbm] at he
        cases he
      have hba : b ≠ a := fun e => hnd'.1 (e ▸ hb)
      rw [hframe1 b hbl hba, hbm]
    obtain ⟨m', hm', hring', hframe'⟩ := ih m1 (l ++ [a]) hring1 hfresh1 hnd'.2
    refine ⟨m', ?_, by simpa using hring', ?_⟩
    · simp [inserts, run, step, ha, hm1]
      exact hm'
    · intro x hxl hxe
      have hxa : x ≠ a := fun e => hxe (e ▸ List.mem_cons_self a rest)
      have hxr : x ∉ rest := fun hm => hxe (List.mem_cons_of_mem a hm)
      rw [hframe' x (by simp [hxl, hxa]) hxr, hframe1 x hxl hxa]

theorem IsRing.nextOf {m : Mem} {l : List Nat} (h : IsRing m l) {i a : Nat}
    (hia : l[i]? = some a) : m.nextOf a = l[if i + 1 = l.length then 0 else i + 1]? := by
  obtain ⟨e, he, hn, _⟩ := h.2.2 i a hia
  simp [Mem.nextOf, he, hn]

theorem IsRing.prevOf {m : Mem} {l : List Nat} (h : IsRing m l) {i a : Nat}
    (hia : l[i]? = some a) : m.prevOf a = l[if i = 0 then l.length - 1 else i - 1]? := by
  obtain ⟨e, he, _, hp⟩ := h.2.2 i a hia
  simp [Mem.prevOf, he, hp]

/-- Following `next` from position `i` of a ring visits the rest of the list
and then the head again. -/
theorem IsRing.follow_wrap {m : Mem} {l : List Nat} (h : IsRing m l) :
    ∀ d i, i + d + 1 = l.length → follow m l[i]? (d + 2) = l.drop i ++ l.take 1 := by
  intro d
  induction d with
  | zero =>
    intro i hi
    have hil : i < l.length := by omega
    have hia : l[i]? = some l[i] := List.getElem?_eq_getElem hil
    have h0 : l[0]? = some l[0] := List.getElem?_eq_getElem (by omega)
    have hnx := h.nextOf hia
    rw [if_pos (by omega), h0] at hnx
    rw [hia]
    simp only [follow, hnx]
    rw [List.drop_eq_getElem_cons hil, List.drop_of_length_le (by omega)]
    cases l with
    | nil => simp at hil
    | cons x xs => simp
  | succ d ih =>
    intro i hi
    have hil : i < l.length := by omega
    have hia : l[i]? = some l[i] := List.getElem?_eq_getElem hil
    have hnx := h.nextOf hia
    rw [if_neg (by omega)] at hnx
    rw [hia]
    simp only [follow, hnx]
    have := ih (i + 1) (by omega)
    simp only [follow] at this
    rw [List.drop_eq_getElem_cons hil, List.cons_append, ← this]

/-! ### The event loop -/

theorem mark_dead_eq {m : Mem} {c p : Nat} {e ep : device_entry}
    (hc : m.heap c = some e) (hn : e.next ≠ some c) (hp : e.prev = some p)
    (hep : m.heap p = some ep) :
    ∃ m', mark_dead m c = some (m', some c) ∧ m'.root_entry = m.root_entry ∧
      ∀ x, m'.heap x =
        (m.heap x).map (fun ex => { ex with flags := marked_flags c p x ex.flags }) := by
  by_cases hpc : p = c
  · subst hpc
    rw [hc] at hep
    cases hep
    refine ⟨_, by simp [mark_dead, hc, hn, hp]; rfl, by simp, ?_⟩
    intro x
    by_cases hx : x = p
    · subst hx; simp [marked_flags, hc, hp]
    · simp [marked_flags, hx]
  · have hcp : c ≠ p := fun h => hpc h.symm
    refine ⟨_, by simp [mark_dead, hc, hn, hp, hep, hcp]; rfl, by simp, ?_⟩
    intro x
    by_cases hx : x = c
    · subst hx; simp [marked_flags, hc, hcp, hp]
    · by_cases hxp : x = p
      · subst hxp; simp [marked_flags, hx, hep]
      · simp [marked_flags, hx, hxp]

/-- The singleton branch of lines 332-336. -/
theorem mark_dead_sole {m : Mem} {c r : Nat} {e er : device_entry}
    (hc : m.heap c = some e) (hn : e.next = some c) (hroot : m.root_entry = some r)
    (hr : m.heap r = some er) :
    mark_dead m c = some ({ (m.store r { er with flags := er.flags ||| DELETION_MARK }) with
      root_entry := none }, none) := by
  simp [mark_dead, hc, hn, hroot, hr]

/-- Lines 366-376 when the cursor's `next` is an entry whose `prev` is the cursor. -/
theorem poller_advance_eq {m : Mem} {c n : Nat} {e en : device_entry}
    (hc : m.heap c = some e) (hn : e.next = some n) (hen : m.heap n = some en)
    (hnp : en.prev = some c) :
    poller_advance m c =
      some (if e.flags &&& APPEND_MARK ≠ 0
              then m.store c { e with flags := e.flags ||| APPEND_CONFIRM } else m,
            if e.flags &&& (NEXT_IS_LOCKED ||| APPEND_CONFIRM) = 0 then some n else some c) := by
  by_cases h1 : e.flags &&& (NEXT_IS_LOCKED ||| APPEND_CONFIRM) = 0
  · by_cases h2 : e.flags &&& APPEND_MARK = 0
    · simp [poller_advance, hc, hn, hen, hnp, h1, h2]
    · simp [poller_advance, hc, hn, hen, hnp, h1, h2]
  · by_cases h2 : e.flags &&& APPEND_MARK = 0
    · simp [poller_advance, hc, h1, h2]
    · simp [poller_advance, hc, h1, h2]

/-- The neighbours of position `k` in a ring. -/
theorem IsRing.neighbours {m : Mem} {l : List Nat} (h : IsRing m l) {k c : Nat}
    (hk : l[k]? = some c) :
    ∃ p n e ep en, l[if k = 0 then l.length - 1 else k - 1]? = some p ∧
      l[if k + 1 = l.length then 0 else k + 1]? = some n ∧
      m.heap c = some e ∧ e.prev = some p ∧ e.next = some n ∧
      m.heap p = some ep ∧ ep.next = some c ∧ m.heap n = some en ∧ en.prev = some c ∧
      (p = c ↔ l.length = 1) ∧ (n = c ↔ l.length = 1) := by
  have hkl : k < l.length := (List.getElem?_eq_some_iff.mp hk).1
  obtain ⟨e, he, hen, hep⟩ := h.2.2 k c hk
  obtain ⟨pk, hpk, hpk'⟩ : ∃ pk, pk = (if k = 0 then l.length - 1 else k - 1) ∧ pk < l.length :=
    ⟨_, rfl, by split_ifs <;> omega⟩
  obtain ⟨sk, hsk, hsk'⟩ : ∃ sk, sk = (if k + 1 = l.length then 0 else k + 1) ∧ sk < l.length :=
    ⟨_, rfl, by split_ifs <;> omega⟩
  rw [← hpk] at hep ⊢
  rw [← hsk] at hen ⊢
  have hp : l[pk]? = some l[pk] := List.getElem?_eq_getElem hpk'
  have hn : l[sk]? = some l[sk] := List.getElem?_eq_getElem hsk'
  obtain ⟨ep, hep1, hepn, _⟩ := h.2.2 pk _ hp
  obtain ⟨en, hen1, _, henp⟩ := h.2.2 sk _ hn
  refine ⟨l[pk], l[sk], e, ep, en, hp, hn, he, by rw [hep, hp], by rw [hen, hn], hep1, ?_,
    hen1, ?_, ?_, ?_⟩
  · rw [hepn, ← hk]
    congr 1
    split_ifs at hpk ⊢ <;> omega
  · rw [henp, ← hk]
    congr 1
    split_ifs at hsk ⊢ <;> omega
  · rw [entry_eq_iff h.1 hp hk]
    split_ifs at hpk <;> omega
  · rw [entry_eq_iff h.1 hn hk]
    split_ifs at hsk <;> omega

/-- A pass of the event loop that finds the cursor disconnected, in a ring of
two entries or more. -/
theorem poll_disconnected {m : Mem} {l : List Nat} {k c : Nat} {inp : PollInput}
    (h : IsRing m l) (h2 : 2 ≤ l.length) (hk : l[k]? = some c)
    (hst : inp.status = ReadStatus.Disconnected) :
    ∃ p n e r, l[if k = 0 then l.length - 1 else k - 1]? = some p ∧
      l[if k + 1 = l.length then 0 else k + 1]? = some n ∧ p ≠ c ∧ n ≠ c ∧
      m.heap c = some e ∧ poller_step m (some c) inp = some r ∧ r.emitted = none ∧
      r.cursor = (if e.flags &&& (NEXT_IS_LOCKED ||| APPEND_CONFIRM) = 0 then some n else some c) ∧
      r.mem.root_entry = m.root_entry ∧
      ∀ x, r.mem.heap x =
        (m.heap x).map (fun ex => { ex with flags := polled_flags c p x ex.flags }) := by
  obtain ⟨p, n, e, ep, en, hp, hn, he, hep, hen, hpe, _, hne, henp, hpc, hnc⟩ := h.neighbours hk
  have hpc' : p ≠ c := fun e => by have := hpc.mp e; omega
  have hnc' : n ≠ c := fun e => by have := hnc.mp e; omega
  have hcp' : c ≠ p := fun e => hpc' e.symm
  have hnx : e.next ≠ some c := by rw [hen]; exact fun e => hnc' (Option.some.inj e)
  obtain ⟨m1, hm1, hroot1, hheap1⟩ := mark_dead_eq he hnx hep hpe
  have hc1 : m1.heap c = some { e with flags := e.flags ||| DELETION_MARK } := by
    rw [hheap1 c]; simp [he, marked_flags, hcp']
  have hn1 : m1.heap n =
      some { en with flags := marked_flags c p n en.flags } := by
    rw [hheap1 n]; simp [hne]
  have hadv := poller_advance_eq hc1 hen hn1 henp
  have e10 : (e.flags ||| DELETION_MARK) &&& (NEXT_IS_LOCKED ||| APPEND_CONFIRM) =
      e.flags &&& (NEXT_IS_LOCKED ||| APPEND_CONFIRM) := or_and_of_disjoint _ (by decide)
  have e4 : (e.flags ||| DELETION_MARK) &&& APPEND_MARK = e.flags &&& APPEND_MARK :=
    or_and_of_disjoint _ (by decide)
  simp only [e10, e4] at hadv
  by_cases hf : e.flags &&& APPEND_MARK = 0
  · simp only [hf, ne_eq, not_true_eq_false, if_false] at hadv
    refine ⟨p, n, e,
      ⟨m1, if e.flags &&& (NEXT_IS_LOCKED ||| APPEND_CONFIRM) = 0 then some n else some c, none⟩,
      hp, hn, hpc', hnc', he, by simp [poller_step, he, hst, hm1, hadv], rfl, rfl, hroot1, ?_⟩
    intro x
    show m1.heap x = _
    rw [hheap1 x]
    by_cases hx : x = c
    · subst hx
      simp [polled_flags, marked_flags, hcp', e4, hf, he]
    · simp [polled_flags, hx]
  · simp only [hf, ne_eq, not_false_eq_true, if_true] at hadv
    refine ⟨p, n, e,
      ⟨m1.store c { e with flags := e.flags ||| DELETION_MARK ||| APPEND_CONFIRM },
        if e.flags &&& (NEXT_IS_LOCKED ||| APPEND_CONFIRM) = 0 then some n else some c, none⟩,
      hp, hn, hpc', hnc', he, by simp [poller_step, he, hst, hm1, hadv], rfl, rfl, hroot1, ?_⟩
    intro x
    show (m1.store c _).heap x = _
    by_cases hx : x = c
    · subst hx
      simp [polled_flags, marked_flags, hcp', e4, hf, he]
    · simp [polled_flags, hx, hheap1 x]

theorem ring_ok_sound {m : Mem} {l : List Nat} (h : ring_ok m l = true) : IsRing m l := by
  simp only [ring_ok, Bool.and_eq_true, decide_eq_true_eq, List.all_eq_true, List.mem_range] at h
  obtain ⟨⟨hnd, hroot⟩, hall⟩ := h
  refine ⟨hnd, hroot, fun i a hia => ?_⟩
  have hi : i < l.length := (List.getElem?_eq_some_iff.mp hia).1
  have := hall i hi
  rw [hia] at this
  simp only at this
  cases he : m.heap a with
  | none => rw [he] at this; simp at this
  | some e =>
    rw [he] at this
    simp only [Bool.and_eq_true, decide_eq_true_eq] at this
    exact ⟨e, rfl, this.1, this.2⟩

/-! ### Start-up enumeration -/

theorem SameLinks.heap_none {m m' : Mem} (h : SameLinks m m') {x : Nat}
    (hx : m.heap x = none) : m'.heap x = none := by
  have := h.2 x
  rw [hx] at this
  simpa using this

theorem SameLinks.symm {m m' : Mem} (h : SameLinks m m') : SameLinks m' m :=
  ⟨h.1.symm, fun x => (h.2 x).symm⟩

theorem mark_tail_all_ring {m : Mem} {l : List Nat} (h : IsRing m l) :
    ∃ m1, mark_tail_all m = some m1 ∧ SameLinks m m1 ∧
      (l ≠ [] → ∃ t et, l[l.length - 1]? = some t ∧ m1.heap t = some et ∧
        et.flags &&& APPEND_CONFIRM ≠ 0) := by
  by_cases hl : l = []
  · subst hl
    have hroot := (IsRing.nil_iff m).mp h
    exact ⟨m, by simp [mark_tail_all, hroot], SameLinks.refl m, fun e => absurd rfl e⟩
  · obtain ⟨r, t, er, et, _, hlast, hroot, hr, hrp, ht, _⟩ := h.root_tail hl
    refine ⟨m.store t { et with flags := et.flags ||| ALL },
      by simp [mark_tail_all, hroot, hr, hrp, ht], SameLinks.store_flags m ht _, fun _ => ?_⟩
    exact ⟨t, { et with flags := et.flags ||| ALL }, hlast, by simp,
      or_and_ne_zero _ (by decide)⟩

theorem clear_before_tail_ring {m : Mem} {l : List Nat} (h : IsRing m l) :
    ∃ m1, clear_before_tail m = some m1 ∧ SameLinks m m1 := by
  by_cases hl : l = []
  · subst hl
    have hroot := (IsRing.nil_iff m).mp h
    exact ⟨m, by simp [clear_before_tail, hroot], SameLinks.refl m⟩
  · obtain ⟨r, t, er, et, _, hlast, hroot, hr, hrp, ht, _⟩ := h.root_tail hl
    obtain ⟨q, _, et', eq, _, _, _, het', hqp, _, heq, _⟩ := h.neighbours hlast
    rw [ht] at het'
    cases het'
    exact ⟨m.store q { eq with flags := 0 },
      by simp [clear_before_tail, hroot, hr, hrp, ht, hqp, heq], SameLinks.store_flags m heq _⟩

/-- Lines 125-144 run by one thread on a ring whose tail already carries
`APPEND_CONFIRM`. -/
theorem link_entry_ring {m : Mem} {l : List Nat} {a : Nat} {ea : device_entry}
    (h : IsRing m l) (hal : a ∉ l) (ha : m.heap a = some ea)
    (hconf : l ≠ [] → ∃ t et, l[l.length - 1]? = some t ∧ m.heap t = some et ∧
      et.flags &&& APPEND_CONFIRM ≠ 0) :
    ∃ m', link_entry m a = some m' ∧ IsRing m' (l ++ [a]) ∧
      ∀ x, x ∉ l → x ≠ a → m'.heap x = m.heap x := by
  by_cases hl : l = []
  · subst hl
    have hroot : m.root_entry = none := (IsRing.nil_iff m).mp h
    refine ⟨{ (m.store a { ea with prev := some a, next := some a }) with root_entry := some a },
      by simp [link_entry, link_sole, hroot, ha], ?_, ?_⟩
    · refine ⟨by simp, by simp, fun i x hix => ?_⟩
      have hi : i = 0 := by
        have := (List.getElem?_eq_some_iff.mp hix).1
        simpa using this
      subst hi
      have hx : a = x := by simpa using hix
      subst hx
      exact ⟨{ ea with prev := some a, next := some a }, by simp, by simp, by simp⟩
    · intro x _ hxa
      simp [hxa]
  · obtain ⟨r, t, er, et, h0, hlast, hroot, hr, hrp, ht, _⟩ := h.root_tail hl
    obtain ⟨t', et', hlast', ht', hc⟩ := hconf hl
    rw [hlast] at hlast'
    cases hlast'
    rw [ht] at ht'
    cases ht'
    have har : a ≠ r := fun e => hal (e ▸ List.getElem?_mem h0)
    have hat : a ≠ t := fun e => hal (e ▸ List.getElem?_mem hlast)
    have e1 : link_entry m a = (append_request m).bind (fun m1 => append_splice m1 a) := by
      simp [link_entry, hroot]
    rw [e1, append_request_eq hroot hr hrp ht]
    simp only [Option.some_bind]
    obtain ⟨er3, hr3, hrp3, _⟩ := store_flags_heap ht (et.flags ||| APPEND_MARK) hr
    obtain ⟨et3, ht3, _, _, _, _, hf3⟩ := store_flags_heap ht (et.flags ||| APPEND_MARK) ht
    rw [if_pos rfl] at hf3
    have ha3 : (m.store t { et with flags := et.flags ||| APPEND_MARK }).heap a = some ea := by
      simp [hat, ha]
    have hc3 : et3.flags &&& APPEND_CONFIRM ≠ 0 := by
      rw [hf3, or_and_of_disjoint _ (by decide)]
      exact hc
    obtain ⟨m', hm', hroot', hheap'⟩ := append_splice_eq (by simpa using hroot) hr3
      (hrp3.trans hrp) ht3 hc3 ha3 har hat
    refine ⟨m', hm', ?_, ?_⟩
    · exact IsRing.snoc (h.sameLinks (SameLinks.store_flags m ht _)) h0 hlast hal ha3 hroot' hheap'
    · intro x hxl hxa
      have hxr : x ≠ r := fun e => hxl (e ▸ List.getElem?_mem h0)
      have hxt : x ≠ t := fun e => hxl (e ▸ List.getElem?_mem hlast)
      rw [hheap' x]
      simp [spliced, hxr, hxt, hxa]

theorem admitted_addr_eq_some {d : dirent} {a : Nat} :
    admitted_addr d = some a ↔ admission d.probe = Admission.admitted ∧ d.probe.malloc = some a := by
  unfold admitted_addr
  split_ifs with h <;> simp [h]

theorem admission_admitted {p : Probe} (h : admission p = Admission.admitted) :
    ¬ p.fd < 0 ∧ ¬ p.status < 0 ∧ check_capabilities p.caps ≠ 0 ∧ ∃ a, p.malloc = some a := by
  unfold admission at h
  split_ifs at h with h1 h2 h3
  cases hm : p.malloc with
  | none => rw [hm] at h; cases h
  | some a => exact ⟨h1, h2, h3, a, rfl⟩

/-- The call of `add_new_entry` on a ring whose tail, if any, carries
`APPEND_CONFIRM`: the status is the one of the outcome; an admitted device is appended, every other
outcome leaves the memory as it was. -/
theorem add_new_entry_ring {m : Mem} {l : List Nat} (d : dirent) (h : IsRing m l)
    (hconf : l ≠ [] → ∃ t et, l[l.length - 1]? = some t ∧ m.heap t = some et ∧
      et.flags &&& APPEND_CONFIRM ≠ 0)
    (hfresh : ∀ a, admitted_addr d = some a → m.heap a = none) :
    ∃ m', add_new_entry m d.probe = some (m', (admission d.probe).status) ∧
      IsRing m' (l ++ (admitted_addr d).toList) ∧
      (∀ x, x ∉ l → admitted_addr d ≠ some x → m'.heap x = m.heap x) := by
  by_cases hadm : admission d.probe = Admission.admitted
  · obtain ⟨h1, h2, h3, a, hma⟩ := admission_admitted hadm
    have haddr : admitted_addr d = some a := admitted_addr_eq_some.mpr ⟨hadm, hma⟩
    have ha : m.heap a = none := hfresh a haddr
    have hal : a ∉ l := fun hm => by
      obtain ⟨e, he⟩ := h.mem_heap hm
      rw [ha] at he
      cases he
    obtain ⟨m2, hm2, hm2root, hm2a, hm2x⟩ : ∃ m2 : Mem,
        m2 = (new_device_entry m a).store a
          { dev := some d.probe.new_device, fd := d.probe.fd, flags := 0, prev := none,
            next := none } ∧
        m2.root_entry = m.root_entry ∧
        m2.heap a = some
          { dev := some d.probe.new_device, fd := d.probe.fd, flags := 0, prev := none,
            next := none } ∧
        ∀ x, x ≠ a → m2.heap x = m.heap x :=
      ⟨_, rfl, rfl, by simp, fun x hx => by simp [new_device_entry, hx]⟩
    have hring2 : IsRing m2 l := h.ring_congr hm2root (fun x hx => by
      rw [hm2x x (fun e => hal (e ▸ hx))])
    have hconf2 : l ≠ [] → ∃ t et, l[l.length - 1]? = some t ∧ m2.heap t = some et ∧
        et.flags &&& APPEND_CONFIRM ≠ 0 := by
      intro hl
      obtain ⟨t, et, ht, het, hc⟩ := hconf hl
      exact ⟨t, et, ht, by rw [hm2x t (fun e => hal (e ▸ List.getElem?_mem ht)), het], hc⟩
    obtain ⟨m', hm', hring', hframe'⟩ := link_entry_ring hring2 hal hm2a hconf2
    refine ⟨m', ?_, by simpa [haddr] using hring', ?_⟩
    · have : add_new_entry m d.probe = (link_entry m2 a).map (fun m3 => (m3, 0)) := by
        simp [add_new_entry, h1, h2, h3, hma, new_device_entry, hm2]
      rw [this, hm', hadm]
      rfl
    · intro x hxl hxa
      have hxa' : x ≠ a := fun e => hxa (e ▸ haddr)
      rw [hframe' x hxl hxa', hm2x x hxa']
  · have haddr : admitted_addr d = none := by
      unfold admitted_addr
      rw [if_neg hadm]
    refine ⟨m, ?_, by simpa [haddr] using h, fun _ _ _ => rfl⟩
    unfold admission at hadm ⊢
    unfold add_new_entry
    by_cases h1 : d.probe.fd < 0
    · simp [h1, Admission.status]
    · by_cases h2 : d.probe.status < 0
      · simp [h1, h2, Admission.status]
      · by_cases h3 : check_capabilities d.probe.caps = 0
        · simp [h1, h2, h3, Admission.status]
        · cases hm : d.probe.malloc with
          | none => simp [h1, h2, h3, hm, Admission.status]
          | some a => simp [h1, h2, h3, hm] at hadm

theorem status_fatal (o : Admission) :
    (o.status ≠ 0 ∧ o.status ≠ 3) ↔ o.fatal = true := by
  cases o <;> simp [Admission.status, Admission.fatal]

/-- The loop of `store_entries` on a ring: it returns the status of the first
fatal candidate, or 0, with the candidates admitted before it appended. -/
theorem store_loop_ring :
    ∀ (ds : List dirent) (m : Mem) (l : List Nat), IsRing m l →
      (∀ a ∈ (candidates ds).filterMap admitted_addr, m.heap a = none) →
      ((candidates ds).filterMap admitted_addr).Nodup →
      ∃ m', store_loop m ds = some (m', first_fatal_status (candidates ds)) ∧
        IsRing m' (l ++ admitted_before_fatal (candidates ds)) := by
  intro ds
  induction ds with
  | nil =>
    intro m l h _ _
    exact ⟨m, rfl, by simpa [candidates, admitted_before_fatal] using h⟩
  | cons d rest ih =>
    intro m l h hfresh hnd
    by_cases hev : strncmp_event d.d_name = true
    · have hc : candidates (d :: rest) = d :: candidates rest := by
        simp [candidates, hev]
      rw [hc] at hfresh hnd ⊢
      obtain ⟨m1, hm1, hs1, hconf1⟩ := mark_tail_all_ring h
      have hring1 : IsRing m1 l := h.sameLinks hs1
      have hfresh1 : ∀ a, admitted_addr d = some a → m1.heap a = none := by
        intro a ha
        exact hs1.heap_none (hfresh a (by simp [List.filterMap_cons, ha]))
      obtain ⟨m2, hm2, hring2, hframe2⟩ := add_new_entry_ring d hring1 hconf1 hfresh1
      by_cases hfat : (admission d.probe).fatal = true
      · have haddr : admitted_addr d = none := by
          unfold admitted_addr
          split_ifs with hadm
          · rw [hadm] at hfat
            cases hfat
          · rfl
        refine ⟨m2, ?_, ?_⟩
        · simp [store_loop, hev, hm1, hm2, (status_fatal _).mpr hfat, first_fatal_status, hfat]
        · simpa [admitted_before_fatal, hfat, haddr] using hring2
      · obtain ⟨m3, hm3, hs3⟩ := clear_before_tail_ring hring2
        have hring3 := hring2.sameLinks hs3
        have hstat : ¬ ((admission d.probe).status ≠ 0 ∧ (admission d.probe).status ≠ 3) :=
          fun e => hfat ((status_fatal _).mp e)
        have hrest_sub : ∀ b ∈ (candidates rest).filterMap admitted_addr,
            m.heap b = none ∧ admitted_addr d ≠ some b := by
          intro b hb
          cases had : admitted_addr d with
          | none =>
            refine ⟨hfresh b ?_, by simp⟩
            simp only [List.filterMap_cons, had]
            exact hb
          | some a =>
            simp only [List.filterMap_cons, had, List.nodup_cons] at hnd
            refine ⟨hfresh b ?_, ?_⟩
            · simp only [List.filterMap_cons, had]
              exact List.mem_cons_of_mem a hb
            · intro e
              cases e
              exact hnd.1 hb
        have hfresh3 : ∀ b ∈ (candidates rest).filterMap admitted_addr, m3.heap b = none := by
          intro b hb
          obtain ⟨hbm, hba⟩ := hrest_sub b hb
          have hbl : b ∉ l := fun hm => by
            obtain ⟨e, he⟩ := h.mem_heap hm
            rw [hbm] at he
            cases he
          apply hs3.heap_none
          rw [hframe2 b hbl hba]
          exact hs1.heap_none hbm
        have hnd3 : ((candidates rest).filterMap admitted_addr).Nodup := by
          cases had : admitted_addr d with
          | none => simpa [List.filterMap_cons, had] using hnd
          | some a =>
            simp only [List.filterMap_cons, had, List.nodup_cons] at hnd
            exact hnd.2
        obtain ⟨m', hm', hring'⟩ := ih m3 _ hring3 hfresh3 hnd3
        refine ⟨m', ?_, ?_⟩
        · simp only [store_loop, hev, if_true, hm1, hm2, if_neg hstat, hm3, first_fatal_status,
            hfat]
          simpa using hm'
        · cases had : admitted_addr d with
          | none => simpa [admitted_before_fatal, hfat, had] using hring'
          | some a => simpa [admitted_before_fatal, hfat, had] using hring'
    · have hc : candidates (d :: rest) = candidates rest := by
        simp [candidates, hev]
      rw [hc] at hfresh hnd ⊢
      obtain ⟨m', hm', hring'⟩ := ih m l h hfresh hnd
      exact ⟨m', by simp [store_loop, hev, hm'], hring'⟩

/-! ### Linked entries -/

/-- The entries of a ring are linked with their neighbours. -/
theorem IsRing.linked_at {m : Mem} {l : List Nat} (h : IsRing m l) {a : Nat} (ha : a ∈ l)
    {e : device_entry} (he : m.heap a = some e) :
    ∃ n p en ep, e.next = some n ∧ e.prev = some p ∧ m.heap n = some en ∧ en.prev = some a ∧
      m.heap p = some ep ∧ ep.next = some a ∧ n ∈ l ∧ p ∈ l := by
  obtain ⟨k, hk⟩ := List.mem_iff_getElem?.mp ha
  obtain ⟨p, n, e', ep, en, hp, hn, he', hep, hen, hpe, hpn, hne, hnp, _⟩ := h.neighbours hk
  rw [he] at he'
  cases he'
  exact ⟨n, p, en, ep, hen, hep, hne, hnp, hpe, hpn, List.getElem?_mem hn, List.getElem?_mem hp⟩

/-- No entry outside a ring points into it, when all entries are linked. -/
theorem Linked.outside {m : Mem} {l : List Nat} (hL : Linked m) (h : IsRing m l) {a : Nat}
    (ha : a ∉ l) {e : device_entry} (he : m.heap a = some e) :
    ∃ n p en ep, e.next = some n ∧ e.prev = some p ∧ m.heap n = some en ∧ en.prev = some a ∧
      m.heap p = some ep ∧ ep.next = some a ∧ n ∉ l ∧ p ∉ l := by
  obtain ⟨n, p, en, ep, hn, hp, hen, hnp, hep, hpn⟩ := hL a e he
  refine ⟨n, p, en, ep, hn, hp, hen, hnp, hep, hpn, ?_, ?_⟩
  · intro hnl
    obtain ⟨_, q, _, _, _, hq, _, _, _, _, _, hql⟩ := h.linked_at hnl hen
    rw [hnp] at hq
    cases hq
    exact ha hql
  · intro hpl
    obtain ⟨q, _, _, _, hq, _, _, _, _, _, hql, _⟩ := h.linked_at hpl hep
    rw [hpn] at hq
    cases hq
    exact ha hql

/-- Linkedness carries over to a memory that holds a ring and agrees with the
old one on the allocated entries outside the old ring. -/
theorem Linked.of_ring_frame {m m' : Mem} {l l' : List Nat} (hL : Linked m) (h : IsRing m l)
    (h' : IsRing m' l')
    (hframe : ∀ x, x ∉ l → m.heap x ≠ none → m'.heap x = m.heap x)
    (hdom : ∀ x, x ∉ l' → m'.heap x ≠ none → x ∉ l ∧ m.heap x ≠ none) :
    Linked m' := by
  intro a e he
  by_cases hal' : a ∈ l'
  · obtain ⟨n, p, en, ep, h1, h2, h3, h4, h5, h6, _⟩ := h'.linked_at hal' he
    exact ⟨n, p, en, ep, h1, h2, h3, h4, h5, h6⟩
  · obtain ⟨hal, ham⟩ := hdom a hal' (by rw [he]; simp)
    rw [hframe a hal ham] at he
    obtain ⟨n, p, en, ep, h1, h2, h3, h4, h5, h6, hnl, hpl⟩ := hL.outside h hal he
    refine ⟨n, p, en, ep, h1, h2, ?_, h4, ?_, h6⟩
    · rw [hframe n hnl (by rw [h3]; simp), h3]
    · rw [hframe p hpl (by rw [h5]; simp), h5]

/-- Linkedness depends on the links only. -/
theorem Linked.linked_congr {m m' : Mem} (hL : Linked m)
    (hh : ∀ x, (m'.heap x).map (fun e => (e.prev, e.next)) =
      (m.heap x).map (fun e => (e.prev, e.next))) : Linked m' := by
  have key : ∀ x e', m'.heap x = some e' →
      ∃ e, m.heap x = some e ∧ e.prev = e'.prev ∧ e.next = e'.next := by
    intro x e' hx
    have := hh x
    rw [hx] at this
    cases hm : m.heap x with
    | none => rw [hm] at this; simp at this
    | some e =>
      rw [hm] at this
      simp at this
      exact ⟨e, rfl, this.1.symm, this.2.symm⟩
  have key' : ∀ x e, m.heap x = some e →
      ∃ e', m'.heap x = some e' ∧ e'.prev = e.prev ∧ e'.next = e.next := by
    intro x e hx
    have := hh x
    rw [hx] at this
    cases hm : m'.heap x with
    | none => rw [hm] at this; simp at this
    | some e' =>
      rw [hm] at this
      simp at this
      exact ⟨e', rfl, this.1, this.2⟩
  intro a e' he'
  obtain ⟨e, he, hp, hn⟩ := key a e' he'
  obtain ⟨n, p, en, ep, h1, h2, h3, h4, h5, h6⟩ := hL a e he
  obtain ⟨en', hen', hnp', _⟩ := key' n en h3
  obtain ⟨ep', hep', _, hpn'⟩ := key' p ep h5
  exact ⟨n, p, en', ep', hn ▸ h1, hp ▸ h2, hen', hnp'.trans h4, hep', hpn'.trans h6⟩

/-- After `free_device_entry` the remaining entries are still linked. -/
theorem Linked.after_free {m m' : Mem} {c n p : Nat} {e en ep : device_entry} (hL : Linked m)
    (hc : m.heap c = some e) (hn : e.next = some n) (hp : e.prev = some p)
    (hen : m.heap n = some en) (hnp : en.prev = some c) (hep : m.heap p = some ep)
    (hpn : ep.next = some c) (hheap : ∀ x, m'.heap x = unlinked m c n p x) : Linked m' := by
  intro a ea' hea'
  rw [hheap a] at hea'
  have hac : a ≠ c := by
    intro e
    subst e
    simp [unlinked] at hea'
  simp only [unlinked, if_neg hac, Option.map_eq_some'] at hea'
  obtain ⟨ea, hea, rfl⟩ := hea'
  obtain ⟨na, pa, ena, epa, h1, h2, h3, h4, h5, h6⟩ := hL a ea hea
  -- the successor
  have hnext : ∃ x ex, (if a = p then some n else ea.next) = some x ∧ m'.heap x = some ex ∧
      ex.prev = some a := by
    by_cases hap : a = p
    · subst hap
      have hnc : n ≠ c := by
        intro e
        subst e
        rw [hc] at hen
        cases hen
        rw [hp] at hnp
        exact hac (Option.some.inj hnp)
      exact ⟨n, _, by simp, by rw [hheap n]; simp [unlinked, hnc, hen]; rfl, by simp⟩
    · have hnac : na ≠ c := by
        intro e
        subst e
        rw [hc] at h3
        cases h3
        rw [hp] at h4
        exact hap (Option.some.inj h4).symm
      have hnan : na ≠ n := by
        intro e
        subst e
        rw [hen] at h3
        cases h3
        rw [hnp] at h4
        exact hac (Option.some.inj h4).symm
      exact ⟨na, _, by simp [hap, h1],
        by rw [hheap na]; simp [unlinked, hnac, h3]; rfl, by simp [hnan, h4]⟩
  -- the predecessor
  have hprev : ∃ x ex, (if a = n then some p else ea.prev) = some x ∧ m'.heap x = some ex ∧
      ex.next = some a := by
    by_cases han : a = n
    · subst han
      have hpc : p ≠ c := by
        intro e
        subst e
        rw [hc] at hep
        cases hep
        rw [hn] at hpn
        exact hac (Option.some.inj hpn)
      exact ⟨p, _, by simp, by rw [hheap p]; simp [unlinked, hpc, hep]; rfl, by simp⟩
    · have hpac : pa ≠ c := by
        intro e
        subst e
        rw [hc] at h5
        cases h5
        rw [hn] at h6
        exact han (Option.some.inj h6).symm
      have hpap : pa ≠ p := by
        intro e
        subst e
        rw [hep] at h5
        cases h5
        rw [hpn] at h6
        exact hac (Option.some.inj h6).symm
      exact ⟨pa, _, by simp [han, h2],
        by rw [hheap pa]; simp [unlinked, hpac, h5]; rfl, by simp [hpap, h6]⟩
  obtain ⟨x, ex, hx1, hx2, hx3⟩ := hnext
  obtain ⟨y, ey, hy1, hy2, hy3⟩ := hprev
  exact ⟨x, y, ex, ey, hx1, hy1, hx2, hx3, hy2, hy3⟩

/-! ## The ring invariant -/

/-- Lines 329-343 write flags only, and either keep `root_entry` or clear it. -/
theorem mark_dead_links {m : Mem} {c : Nat} {r : Mem × Option Nat}
    (h : mark_dead m c = some r) :
    (∀ x, (r.1.heap x).map (fun e => (e.prev, e.next)) =
      (m.heap x).map (fun e => (e.prev, e.next))) ∧
    (r.1.root_entry = none ∨ r.1.root_entry = m.root_entry) := by
  cases hc : m.heap c with
  | none => simp [mark_dead, hc] at h
  | some e =>
    by_cases hn : e.next = some c
    · cases hroot : m.root_entry with
      | none => simp [mark_dead, hc, hn, hroot] at h
      | some r0 =>
        cases hr : m.heap r0 with
        | none => simp [mark_dead, hc, hn, hroot, hr] at h
        | some er =>
          rw [mark_dead_sole hc hn hroot hr] at h
          cases h
          refine ⟨fun x => ?_, Or.inl rfl⟩
          exact (SameLinks.store_flags m hr _).2 x
    · cases hp : e.prev with
      | none => simp [mark_dead, hc, hn, hp] at h
      | some p =>
        cases hep : m.heap p with
        | none => simp [mark_dead, hc, hn, hp, hep] at h
        | some ep =>
          obtain ⟨m', hm', hroot', hheap'⟩ := mark_dead_eq hc hn hp hep
          rw [hm'] at h
          cases h
          refine ⟨fun x => ?_, Or.inr hroot'⟩
          rw [hheap' x]
          cases m.heap x <;> simp

theorem RingInv.empty : RingInv Mem.empty :=
  ⟨fun a e he => by simp [Mem.empty] at he, [], (IsRing.nil_iff _).mpr rfl⟩

theorem RingInv.step_preserved {m m' : Mem} {op : Op} (hinv : RingInv m) (h : step m op = some m') :
    RingInv m' := by
  obtain ⟨hL, l, hring⟩ := hinv
  cases op with
  | insert_tail a dev fd =>
    cases ha : m.heap a with
    | some e => simp [Spynput.step, ha] at h
    | none =>
      obtain ⟨m1, hm1, hring1, hframe1, ea, hea, _⟩ := insert_tail_ring dev fd hring ha
      have : m' = m1 := by
        simp only [Spynput.step, ha, hm1, Option.some.injEq] at h
        exact h.symm
      subst this
      refine ⟨hL.of_ring_frame hring hring1 ?_ ?_, l ++ [a], hring1⟩
      · intro x hxl hxm
        have hxa : x ≠ a := fun e => hxm (e ▸ ha)
        exact hframe1 x hxl hxa
      · intro x hxl' hxm'
        have hxl : x ∉ l := fun hm => hxl' (List.mem_append_left _ hm)
        have hxa : x ≠ a := fun e => hxl' (by simp [e])
        exact ⟨hxl, by rw [← hframe1 x hxl hxa]; exact hxm'⟩
  | mark_dead c =>
    simp only [Spynput.step, Option.map_eq_some'] at h
    obtain ⟨r, hr, rfl⟩ := h
    obtain ⟨hlinks, hroot⟩ := mark_dead_links hr
    refine ⟨hL.linked_congr hlinks, ?_⟩
    rcases hroot with h0 | h0
    · exact ⟨[], (IsRing.nil_iff _).mpr h0⟩
    · exact ⟨l, hring.ring_congr h0 (fun x _ => hlinks x)⟩
  | reclaim c =>
    cases hc : m.heap c with
    | none => simp [Spynput.step, hc] at h
    | some e =>
      by_cases hdel : e.flags &&& DELETION_MARK = 0
      · simp [Spynput.step, hc, hdel] at h
      · have hfree : free_device_entry m (some c) = some m' := by
          simpa [Spynput.step, hc, hdel] using h
        obtain ⟨n, p, en, ep, hn, hp, hen, hnp, hep, hpn⟩ := hL c e hc
        obtain ⟨m2, hm2, hroot2, hheap2⟩ := free_device_entry_eq hc hn hp hen hep
        rw [hm2] at hfree
        cases hfree
        refine ⟨hL.after_free hc hn hp hen hnp hep hpn hheap2, ?_⟩
        by_cases hcl : c ∈ l
        · obtain ⟨k, hk⟩ := List.mem_iff_getElem?.mp hcl
          obtain ⟨p', n', e', _, _, hp', hn', he', hep', hen', _⟩ := hring.neighbours hk
          rw [hc] at he'
          cases he'
          rw [hp] at hep'
          rw [hn] at hen'
          cases hep'
          cases hen'
          exact ⟨l.eraseIdx k, hring.eraseIdx hk hn' hp' hroot2 hheap2⟩
        · obtain ⟨n', p', _, _, hn', hp', _, _, _, _, hnl, hpl⟩ := hL.outside hring hcl hc
          rw [hn] at hn'
          rw [hp] at hp'
          cases hn'
          cases hp'
          by_cases hnc : n = c
          · exact ⟨[], (IsRing.nil_iff _).mpr (by rw [hroot2, if_pos hnc])⟩
          · have hrc : m.root_entry ≠ some c := by
              rw [hring.2.1]
              intro e
              exact hcl (List.mem_of_mem_head? e)
            refine ⟨l, hring.ring_congr (by rw [hroot2, if_neg hnc, if_neg hrc]) (fun x hx => ?_)⟩
            have hxc : x ≠ c := fun e => hcl (e ▸ hx)
            have hxn : x ≠ n := fun e => hnl (e ▸ hx)
            have hxp : x ≠ p := fun e => hpl (e ▸ hx)
            rw [hheap2 x]
            cases hmx : m.heap x <;> simp [unlinked, hxc, hxn, hxp, hmx]

theorem RingInv.run_preserved : ∀ (ops : List Op) {m m' : Mem}, RingInv m → run m ops = some m' →
    RingInv m' := by
  intro ops
  induction ops with
  | nil =>
    intro m m' hinv h
    simp only [Spynput.run, Option.some.injEq] at h
    exact h ▸ hinv
  | cons op rest ih =>
    intro m m' hinv h
    cases hs : Spynput.step m op with
    | none => simp [Spynput.run, hs] at h
    | some m1 =>
      simp only [Spynput.run, hs, Option.some_bind] at h
      exact ih (hinv.step_preserved hs) h

/-- Following `next` inside a ring never leaves it. -/
theorem IsRing.follow_mem {m : Mem} {l : List Nat} (h : IsRing m l) :
    ∀ k (c : Option Nat), (∀ a, c = some a → a ∈ l) → ∀ x ∈ follow m c k, x ∈ l := by
  intro k
  induction k with
  | zero =>
    intro c _ x hx
    cases c <;> simp [follow] at hx
  | succ k ih =>
    intro c hc x hx
    cases c with
    | none => simp [follow] at hx
    | some a =>
      have hal := hc a rfl
      simp only [follow, List.mem_cons] at hx
      rcases hx with rfl | hx
      · exact hal
      · refine ih (m.nextOf a) ?_ x hx
        intro b hb
        obtain ⟨e, he⟩ := h.mem_heap hal
        obtain ⟨n, _, _, _, hn, _, _, _, _, _, hnl, _⟩ := h.linked_at hal he
        have : m.nextOf a = some n := by simp [Mem.nextOf, he, hn]
        rw [this] at hb
        cases hb
        exact hnl

/-- C1. After every sequence of `insert_tail`, `mark_dead` and `reclaim`
operations from the empty registry, `root_entry` is `NULL` or the entries
reached from it form a ring: a duplicate-free list headed by `root_entry`
whose `next` and `prev` links follow the list cyclically. Every entry `a` of
the ring has `a->next->prev == a` and `a->prev->next == a`, a sole entry is its
own `next` and `prev`, and following `next` from `root_entry` never leaves the
ring. -/
theorem ring_invariant (ops : List Op) (m : Mem) (h : run Mem.empty ops = some m) :
    ∃ l, IsRing m l ∧ (m.root_entry = none ↔ l = []) ∧
      (∀ a ∈ l, ∃ n p, m.nextOf a = some n ∧ m.prevOf a = some p ∧
        m.prevOf n = some a ∧ m.nextOf p = some a) ∧
      (∀ a, l = [a] → m.nextOf a = some a ∧ m.prevOf a = some a) ∧
      (∀ k, ∀ x ∈ follow m m.root_entry k, x ∈ l) := by
  obtain ⟨_, l, hring⟩ := RingInv.empty.run_preserved ops h
  refine ⟨l, hring, ?_, ?_, ?_, ?_⟩
  · rw [hring.2.1]
    cases l <;> simp
  · intro a ha
    obtain ⟨e, he⟩ := hring.mem_heap ha
    obtain ⟨n, p, en, ep, h1, h2, h3, h4, h5, h6, _⟩ := hring.linked_at ha he
    exact ⟨n, p, by simp [Mem.nextOf, he, h1], by simp [Mem.prevOf, he, h2],
      by simp [Mem.prevOf, h3, h4], by simp [Mem.nextOf, h5, h6]⟩
  · intro a hl
    subst hl
    have h0 : [a][0]? = some a := rfl
    exact ⟨by rw [hring.nextOf h0]; rfl, by rw [hring.prevOf h0]; rfl⟩
  · intro k x hx
    refine hring.follow_mem k m.root_entry ?_ x hx
    intro a ha
    rw [hring.2.1] at ha
    exact List.mem_of_mem_head? ha

theorem sample_mem_run : run Mem.empty sample_ops = some sample_mem := by
  have hs : (run Mem.empty sample_ops).isSome = true := by decide
  obtain ⟨m, hm⟩ := Option.isSome_iff_exists.mp hs
  unfold sample_mem
  rw [hm]
  rfl

theorem ring_invariant_witness :
    run Mem.empty sample_ops = some sample_mem ∧ follow sample_mem sample_mem.root_entry 3 = [1, 3, 1] ∧
    ∃ l, IsRing sample_mem l ∧ (sample_mem.root_entry = none ↔ l = []) ∧
      (∀ a ∈ l, ∃ n p, sample_mem.nextOf a = some n ∧ sample_mem.prevOf a = some p ∧
        sample_mem.prevOf n = some a ∧ sample_mem.nextOf p = some a) ∧
      (∀ a, l = [a] → sample_mem.nextOf a = some a ∧ sample_mem.prevOf a = some a) ∧
      (∀ k, ∀ x ∈ follow sample_mem sample_mem.root_entry k, x ∈ l) :=
  ⟨sample_mem_run, by decide, ring_invariant sample_ops sample_mem sample_mem_run⟩

/-! ## Insertion order -/

theorem IsRing.root_prev {m : Mem} {l : List Nat} (h : IsRing m l) :
    m.root_entry.bind m.prevOf = l.getLast? := by
  by_cases hl : l = []
  · subst hl
    simp [(IsRing.nil_iff m).mp h]
  · obtain ⟨r, t, er, et, _, hlast, hroot, hr, hrp, _⟩ := h.root_tail hl
    rw [hroot, List.getLast?_eq_getElem?, hlast]
    simp [Mem.prevOf, hr, hrp]

theorem IsRing.follow_all {m : Mem} {l : List Nat} (h : IsRing m l) (hl : l ≠ []) :
    follow m m.root_entry (l.length + 1) = l ++ l.take 1 := by
  have hlen : 0 < l.length := List.length_pos.mpr hl
  have := h.follow_wrap (l.length - 1) 0 (by omega)
  rw [h.2.1, List.head?_eq_getElem?]
  have e : l.length - 1 + 2 = l.length + 1 := by omega
  rw [e] at this
  simpa using this

/-- C2. Entries inserted one after the other into the empty registry form the
ring read in insertion order: following `next` from `root_entry` visits
`e1, ..., en` and then `e1` again, `root_entry` is `e1`, `root_entry->prev` is
the entry inserted last, and a further insertion puts its entry right before
the root: the ring becomes `es ++ [a]`. -/
theorem insertion_preserves_order (dev : Nat → Nat) (fd : Nat → Int) (es : List Nat)
    (hne : es ≠ []) (hnd : es.Nodup) :
    ∃ m, run Mem.empty (inserts dev fd es) = some m ∧ IsRing m es ∧
      m.root_entry = es.head? ∧ m.root_entry.bind m.prevOf = es.getLast? ∧
      follow m m.root_entry (es.length + 1) = es ++ es.take 1 ∧
      ∀ a d f, m.heap a = none →
        ∃ m', step m (Op.insert_tail a d f) = some m' ∧ IsRing m' (es ++ [a]) ∧
          m'.root_entry = m.root_entry ∧ m'.root_entry.bind m'.prevOf = some a := by
  have h0 : IsRing Mem.empty [] := (IsRing.nil_iff _).mpr rfl
  obtain ⟨m, hm, hring, _⟩ := run_inserts dev fd es Mem.empty [] h0 (fun _ _ => rfl) hnd
  rw [List.nil_append] at hring
  refine ⟨m, hm, hring, hring.2.1, hring.root_prev, hring.follow_all hne, ?_⟩
  intro a d f ha
  obtain ⟨m', hm', hring', _⟩ := insert_tail_ring d f hring ha
  refine ⟨m', by simp [step, ha, hm'], hring', ?_, ?_⟩
  · rw [hring'.2.1, hring.2.1]
    cases es with
    | nil => exact absurd rfl hne
    | cons x xs => rfl
  · rw [hring'.root_prev]
    simp

theorem insertion_preserves_order_witness :
    [1, 2, 3] ≠ [] ∧ [1, 2, 3].Nodup ∧
    ∃ m, run Mem.empty (inserts (fun _ => 0) (fun _ => 0) [1, 2, 3]) = some m ∧
      IsRing m [1, 2, 3] ∧
      m.root_entry = [1, 2, 3].head? ∧ m.root_entry.bind m.prevOf = [1, 2, 3].getLast? ∧
      follow m m.root_entry ([1, 2, 3].length + 1) = [1, 2, 3] ++ [1, 2, 3].take 1 ∧
      ∀ a d f, m.heap a = none →
        ∃ m', step m (Op.insert_tail a d f) = some m' ∧ IsRing m' ([1, 2, 3] ++ [a]) ∧
          m'.root_entry = m.root_entry ∧ m'.root_entry.bind m'.prevOf = some a :=
  ⟨by decide, by decide,
    insertion_preserves_order (fun _ => 0) (fun _ => 0) [1, 2, 3] (by decide) (by decide)⟩

/-! ## Removal -/

theorem IsRing.flagsOf_some {m : Mem} {l : List Nat} (h : IsRing m l) {a : Nat} (ha : a ∈ l)
    {f : Nat} (hf : m.flagsOf a = some f) : ∃ e, m.heap a = some e ∧ e.flags = f := by
  obtain ⟨e, he⟩ := h.mem_heap ha
  refine ⟨e, he, ?_⟩
  simpa [Mem.flagsOf, he] using hf

/-- C3. In a ring of two entries or more with all flags clear, a pass of the
event loop that finds its cursor `c` disconnected puts `NEXT_IS_LOCKED` on
`c->prev` and `DELETION_MARK` on `c`, emits nothing and moves the cursor to
`c->next`; `free_device_entry` on `c` then leaves the ring of the other entries
in their order, with the flags of `c->prev` back to zero, every other flags
register as it was, `c` gone, and `root_entry` moved to `c->next` exactly when
`c` was the root. -/
theorem mark_then_sweep (m : Mem) (l : List Nat) (k c : Nat) (inp : PollInput)
    (h : IsRing m l) (h2 : 2 ≤ l.length) (hflags : ∀ a ∈ l, m.flagsOf a = some 0)
    (hk : l[k]? = some c) (hst : inp.status = ReadStatus.Disconnected) :
    ∃ p n r m2, m.prevOf c = some p ∧ m.nextOf c = some n ∧
      poller_step m (some c) inp = some r ∧ r.cursor = some n ∧ r.emitted = none ∧
      r.mem.flagsOf p = some NEXT_IS_LOCKED ∧ r.mem.flagsOf c = some DELETION_MARK ∧
      (∀ a ∈ l, a ≠ p → a ≠ c → r.mem.flagsOf a = some 0) ∧ IsRing r.mem l ∧
      free_device_entry r.mem (some c) = some m2 ∧
      IsRing m2 (l.erase c) ∧ m2.heap c = none ∧ m2.flagsOf p = some 0 ∧
      (∀ a, a ≠ c → a ≠ p → m2.flagsOf a = r.mem.flagsOf a) ∧
      m2.root_entry = (if m.root_entry = some c then some n else m.root_entry) := by
  obtain ⟨p, n, e, r, hp, hn, hpc, hnc, he, hr, hemit, hcur, hroot, hheap⟩ :=
    poll_disconnected h h2 hk hst
  have hcl : c ∈ l := List.getElem?_mem hk
  have hpl : p ∈ l := List.getElem?_mem hp
  have hnl : n ∈ l := List.getElem?_mem hn
  obtain ⟨e', he', hef⟩ := h.flagsOf_some hcl (hflags c hcl)
  rw [he] at he'
  cases he'
  obtain ⟨ep, hep, hepf⟩ := h.flagsOf_some hpl (hflags p hpl)
  obtain ⟨en, hen⟩ := h.mem_heap hnl
  have hcp : c ≠ p := fun e => hpc e.symm
  have hring1 : IsRing r.mem l := h.ring_congr hroot (fun x _ => by
    rw [hheap x]; cases m.heap x <;> simp)
  have hpv : m.prevOf c = some p := by rw [h.prevOf hk, hp]
  have hnx : m.nextOf c = some n := by rw [h.nextOf hk, hn]
  have hpe : e.prev = some p := by simpa [Mem.prevOf, he] using hpv
  have hne : e.next = some n := by simpa [Mem.nextOf, he] using hnx
  have hrc : r.mem.heap c = some { e with flags := polled_flags c p c e.flags } := by
    rw [hheap c, he]; rfl
  have hrp : r.mem.heap p = some { ep with flags := polled_flags c p p ep.flags } := by
    rw [hheap p, hep]; rfl
  have hrn : r.mem.heap n = some { en with flags := polled_flags c p n en.flags } := by
    rw [hheap n, hen]; rfl
  obtain ⟨m2, hm2, hroot2, hheap2⟩ := free_device_entry_eq hrc hne hpe hrn hrp
  have herase : l.eraseIdx k = l.erase c := by
    have hkl : k < l.length := (List.getElem?_eq_some_iff.mp hk).1
    have hc : l[k] = c := (List.getElem?_eq_some_iff.mp hk).2
    rw [← hc]
    exact (h.1.erase_getElem k hkl).symm
  have hring2 : IsRing m2 (l.eraseIdx k) := hring1.eraseIdx hk hn hp hroot2 hheap2
  refine ⟨p, n, r, m2, hpv, hnx, hr, ?_, hemit, ?_, ?_, ?_, hring1, hm2, herase ▸ hring2, ?_, ?_,
    ?_, ?_⟩
  · rw [hcur, hef]
    rfl
  · simp [Mem.flagsOf, hrp, polled_flags, marked_flags, hpc, hepf]
  · simp [Mem.flagsOf, hrc, polled_flags, marked_flags, hcp, hef]
    decide
  · intro a ha hap hac
    obtain ⟨ea, hea, heaf⟩ := h.flagsOf_some ha (hflags a ha)
    simp [Mem.flagsOf, hheap a, hea, polled_flags, marked_flags, hap, hac, heaf]
  · rw [hheap2 c]
    simp [unlinked]
  · rw [Mem.flagsOf, hheap2 p]
    simp [unlinked, hpc, hrp, polled_flags, marked_flags, hepf]
    decide
  · intro a hac hap
    rw [Mem.flagsOf, Mem.flagsOf, hheap2 a]
    cases hx : r.mem.heap a <;> simp [unlinked, hac, hap, hx]
  · rw [hroot2, hroot, if_neg hnc]

theorem mark_then_sweep_witness :
    IsRing ring123 [1, 2, 3] ∧ 2 ≤ [1, 2, 3].length ∧
    (∀ a ∈ [1, 2, 3], ring123.flagsOf a = some 0) ∧ [1, 2, 3][1]? = some 2 ∧
    ∃ p n r m2, ring123.prevOf 2 = some p ∧ ring123.nextOf 2 = some n ∧
      poller_step ring123 (some 2) ⟨ReadStatus.Disconnected, ⟨0, 0, 0⟩, ⟨0, 0, 0⟩⟩ = some r ∧
      r.cursor = some n ∧ r.emitted = none ∧
      r.mem.flagsOf p = some NEXT_IS_LOCKED ∧ r.mem.flagsOf 2 = some DELETION_MARK ∧
      (∀ a ∈ [1, 2, 3], a ≠ p → a ≠ 2 → r.mem.flagsOf a = some 0) ∧ IsRing r.mem [1, 2, 3] ∧
      free_device_entry r.mem (some 2) = some m2 ∧
      IsRing m2 ([1, 2, 3].erase 2) ∧ m2.heap 2 = none ∧ m2.flagsOf p = some 0 ∧
      (∀ a, a ≠ 2 → a ≠ p → m2.flagsOf a = r.mem.flagsOf a) ∧
      m2.root_entry = (if ring123.root_entry = some 2 then some n else ring123.root_entry) :=
  ⟨ring_ok_sound (by decide), by decide, by decide, rfl,
    mark_then_sweep ring123 [1, 2, 3] 1 2 ⟨ReadStatus.Disconnected, ⟨0, 0, 0⟩, ⟨0, 0, 0⟩⟩
      (ring_ok_sound (by decide)) (by decide) (by decide) rfl rfl⟩

/-! ## The append handshake -/

theorem append_splice_blocked {m : Mem} {a r t : Nat} {er et : device_entry}
    (hroot : m.root_entry = some r) (hr : m.heap r = some er) (hrp : er.prev = some t)
    (ht : m.heap t = some et) (hc : et.flags &&& APPEND_CONFIRM = 0) :
    append_splice m a = none := by
  simp [append_splice, hroot, hr, hrp, ht, hc]

/-- C4. In a non-empty ring whose tail `T` carries `APPEND_MARK`, with a new
entry `a` allocated and not yet linked: the splice of lines 134-142 goes
through only if `T` carries `APPEND_CONFIRM`; when `T` carries neither
`NEXT_IS_LOCKED` nor `APPEND_CONFIRM`, the splice is not possible yet, the
advance of the event loop from the cursor `T` moves the cursor to `T->next`
and puts `APPEND_CONFIRM` on `T`, and the splice that follows gives the ring
`l ++ [a]` with `T->next == a`, `a->prev == T`, `a->next == root_entry`,
`root_entry->prev == a`, the root unchanged, and both bits cleared on `T`. -/
theorem append_handshake (m : Mem) (l : List Nat) (a T f : Nat) (ea : device_entry)
    (h : IsRing m l) (hT : l[l.length - 1]? = some T) (hf : m.flagsOf T = some f)
    (hreq : f &&& APPEND_MARK ≠ 0) (hal : a ∉ l) (ha : m.heap a = some ea) :
    (∀ m', append_splice m a = some m' → f &&& APPEND_CONFIRM ≠ 0) ∧
    (f &&& (NEXT_IS_LOCKED ||| APPEND_CONFIRM) = 0 →
      append_splice m a = none ∧
      ∃ n m1 m2, m.nextOf T = some n ∧ poller_advance m T = some (m1, some n) ∧
        m1.flagsOf T = some (f ||| APPEND_CONFIRM) ∧
        (∀ x, x ≠ T → m1.heap x = m.heap x) ∧ IsRing m1 l ∧
        append_splice m1 a = some m2 ∧ IsRing m2 (l ++ [a]) ∧
        m2.nextOf T = some a ∧ m2.prevOf a = some T ∧ m2.nextOf a = m2.root_entry ∧
        m2.root_entry = m.root_entry ∧ m2.root_entry.bind m2.prevOf = some a ∧
        (m2.flagsOf T).map (fun g => g &&& (APPEND_MARK ||| APPEND_CONFIRM)) = some 0) := by
  have hl : l ≠ [] := by
    intro e
    subst e
    simp at hT
  obtain ⟨r, t, er, et, h0, hlast, hroot, hr, hrp, ht, htn⟩ := h.root_tail hl
  rw [hT] at hlast
  cases hlast
  have hetf : et.flags = f := by simpa [Mem.flagsOf, ht] using hf
  have har : a ≠ r := fun e => hal (e ▸ List.getElem?_mem h0)
  have hat : a ≠ T := fun e => hal (e ▸ List.getElem?_mem hT)
  constructor
  · intro m' hm' hc
    rw [append_splice_blocked hroot hr hrp ht (hetf ▸ hc)] at hm'
    cases hm'
  · intro hfree
    have hc0 : f &&& APPEND_CONFIRM = 0 := by
      apply Nat.eq_of_testBit_eq
      intro i
      have := congrArg (fun n => Nat.testBit n i) hfree
      simp only [Nat.testBit_and, Nat.testBit_or, Nat.zero_testBit] at this ⊢
      cases hb : f.testBit i <;> cases hb2 : APPEND_CONFIRM.testBit i <;> simp_all
    refine ⟨append_splice_blocked hroot hr hrp ht (hetf ▸ hc0), ?_⟩
    have hadv := poller_advance_eq ht htn hr hrp
    rw [hetf, if_pos hreq, if_pos hfree] at hadv
    obtain ⟨er1, hr1, hrp1, _⟩ := store_flags_heap ht (f ||| APPEND_CONFIRM) hr
    obtain ⟨et1, ht1, _, _, _, _, hf1⟩ := store_flags_heap ht (f ||| APPEND_CONFIRM) ht
    rw [if_pos rfl] at hf1
    have ha1 : (m.store T { et with flags := f ||| APPEND_CONFIRM }).heap a = some ea := by
      simp [hat, ha]
    have hring1 : IsRing (m.store T { et with flags := f ||| APPEND_CONFIRM }) l :=
      h.sameLinks (SameLinks.store_flags m ht _)
    obtain ⟨m2, hm2, hroot2, hheap2⟩ := append_splice_eq (by simpa using hroot) hr1
      (hrp1.trans hrp) ht1 (by rw [hf1, or_and_self_eq]; decide) ha1 har hat
    have hring2 : IsRing m2 (l ++ [a]) := hring1.snoc h0 hT hal ha1 hroot2 hheap2
    refine ⟨r, _, m2, by simp [Mem.nextOf, ht, htn], hadv, by simp [Mem.flagsOf],
      fun x hx => by simp [hx], hring1, hm2, hring2, ?_, ?_, ?_, hroot2.trans hroot.symm, ?_, ?_⟩
    · simp [Mem.nextOf, hheap2 T, spliced]
    · simp [Mem.prevOf, hheap2 a, spliced, har, hat, ha]
    · simp [Mem.nextOf, hheap2 a, spliced, hat, ha, hroot2]
    · rw [hring2.root_prev]
      simp
    · simp only [Mem.flagsOf, hheap2 T, spliced, store_heap, if_pos, Option.map_some']
      rw [and_and_of_disjoint _ (by decide)]

theorem append_handshake_witness :
    IsRing ring123_request [1, 2, 3] ∧ [1, 2, 3][[1, 2, 3].length - 1]? = some 3 ∧
    ring123_request.flagsOf 3 = some APPEND_MARK ∧ APPEND_MARK &&& APPEND_MARK ≠ 0 ∧
    4 ∉ [1, 2, 3] ∧ ring123_request.heap 4 = some ⟨some 7, 5, 0, none, none⟩ ∧
    (∀ m', append_splice ring123_request 4 = some m' → APPEND_MARK &&& APPEND_CONFIRM ≠ 0) ∧
    (APPEND_MARK &&& (NEXT_IS_LOCKED ||| APPEND_CONFIRM) = 0 →
      append_splice ring123_request 4 = none ∧
      ∃ n m1 m2, ring123_request.nextOf 3 = some n ∧
        poller_advance ring123_request 3 = some (m1, some n) ∧
        m1.flagsOf 3 = some (APPEND_MARK ||| APPEND_CONFIRM) ∧
        (∀ x, x ≠ 3 → m1.heap x = ring123_request.heap x) ∧ IsRing m1 [1, 2, 3] ∧
        append_splice m1 4 = some m2 ∧ IsRing m2 ([1, 2, 3] ++ [4]) ∧
        m2.nextOf 3 = some 4 ∧ m2.prevOf 4 = some 3 ∧ m2.nextOf 4 = m2.root_entry ∧
        m2.root_entry = ring123_request.root_entry ∧
        m2.root_entry.bind m2.prevOf = some 4 ∧
        (m2.flagsOf 3).map (fun g => g &&& (APPEND_MARK ||| APPEND_CONFIRM)) = some 0) :=
  ⟨ring_ok_sound (by decide), rfl, rfl, by decide, by decide, rfl,
    append_handshake ring123_request [1, 2, 3] 4 3 APPEND_MARK ⟨some 7, 5, 0, none, none⟩
      (ring_ok_sound (by decide)) rfl rfl (by decide) (by decide) rfl⟩

/-! ## The cursor of the event loop -/

/-- C5 fails on the code. In the ring `1, 2` where `1` carries
`NEXT_IS_LOCKED` (the state the code reaches from the ring `1, 2` by marking
`2` dead from the cursor `2`), a pass that finds the cursor `1` disconnected
marks `1` and leaves the cursor on `1`, not on its `next`, which is `2`. The
next pass reads the marked entry again and prints its record; the manager's
scan of `1` frees it while the cursor of the event loop is still there, and
the pass after that reads freed memory. -/
theorem poller_stays_on_locked_entry :
    IsRing locked_pair [1, 2] ∧ locked_pair.nextOf 1 = some 2 ∧
    ((run Mem.empty (inserts (fun _ => 0) (fun _ => 0) [1, 2])).bind
      (fun m => poller_step m (some 2) disconnected)).map
      (fun r => (r.cursor, r.mem.root_entry, r.mem.heap 1, r.mem.heap 2)) =
      some (some 1, locked_pair.root_entry, locked_pair.heap 1, locked_pair.heap 2) ∧
    (poller_step locked_pair (some 1) disconnected).map
      (fun r => (r.cursor, r.mem.flagsOf 1)) =
      some (some 1, some (NEXT_IS_LOCKED ||| DELETION_MARK)) ∧
    ((poller_step locked_pair (some 1) disconnected).bind
      (fun r => poller_step r.mem r.cursor ⟨ReadStatus.Success, ⟨1, 30, 1⟩, ⟨0, 0, 0⟩⟩)).map
      (fun r => (r.cursor, r.emitted)) = some (some 1, some ⟨1, 30, 1⟩) ∧
    ((poller_step locked_pair (some 1) disconnected).bind
      (fun r => (manage_devices_scan r.mem (some 1)).map
        (fun s => (r.cursor, s.1.heap 1, s.1.root_entry, s.2)))) =
      some (some 1, none, some 2, some 2) ∧
    ((poller_step locked_pair (some 1) disconnected).bind
      (fun r => (manage_devices_scan r.mem (some 1)).bind
        (fun s => poller_step s.1 r.cursor disconnected))).isNone = true :=
  ⟨ring_ok_sound (by decide), by decide, by decide, by decide, by decide, by decide, by decide⟩

/-! ## Traces on which the code departs from its description -/

/-- C6 fails on the code. The manager's scan of a self-linked entry that
carries `DELETION_MARK` frees the entry and leaves `current_entry` on it: for
the entry orphaned by the removal of the only device (the state the event loop
produces from the ring `1`), and for a ring whose only entry is marked. The
next scan then reads freed memory. -/
theorem scan_keeps_freed_cursor :
    ((run Mem.empty [Op.insert_tail 1 0 0]).bind
      (fun m => poller_step m (some 1) disconnected)).map
      (fun r => (r.cursor, r.mem.root_entry, r.mem.heap 1)) =
      some (none, orphan_dead.root_entry, orphan_dead.heap 1) ∧
    (manage_devices_scan orphan_dead (some 1)).map
      (fun r => (r.2, r.1.heap 1, r.1.root_entry)) = some (some 1, none, none) ∧
    (manage_devices_scan sole_dead (some 1)).map
      (fun r => (r.2, r.1.heap 1, r.1.root_entry)) = some (some 1, none, none) ∧
    ((manage_devices_scan orphan_dead (some 1)).bind
      (fun r => manage_devices_scan r.1 r.2)).isNone = true := by
  decide

/-- C9 fails on the code. Insert `1`, mark it dead (the singleton case clears
`root_entry`), insert `2`, reclaim `1`: before the reclaim `root_entry` is `2`,
after it `root_entry` is `NULL` although `1` was not the root, and the entry
`2`, inserted and never marked, is still allocated with clear flags and is no
longer reached from `root_entry`. -/
theorem reclaim_of_orphan_drops_live_entry :
    (run Mem.empty [Op.insert_tail 1 0 0, Op.mark_dead 1, Op.insert_tail 2 0 0]).map
      (fun m => (m.root_entry, m.flagsOf 1)) = some (some 2, some DELETION_MARK) ∧
    (run Mem.empty
      [Op.insert_tail 1 0 0, Op.mark_dead 1, Op.insert_tail 2 0 0, Op.reclaim 1]).map
      (fun m => (m.root_entry, m.heap 1, m.heap 2, follow m m.root_entry 2)) =
      some (none, none, some ⟨some 0, 0, 0, some 2, some 2⟩, []) := by
  decide

/-- C10 fails on the code. Two admitted event files followed by a rejected one:
`store_entries` returns 0, the ring is `1, 2`, and the tail `2` is left with
the flags `ALL`. -/
theorem store_entries_leaves_flags :
    (store_entries Mem.empty (some [admitted_file 1, admitted_file 2, rejected_file])).map
      (fun r => (r.2, r.1.root_entry, follow r.1 r.1.root_entry 3, r.1.flagsOf 1,
        r.1.flagsOf 2)) =
      some (0, some 1, [1, 2, 1], some 0, some ALL) := by
  decide

/-! ## The status of the enumeration -/

theorem fatal_iff (o : Admission) :
    o.fatal = true ↔ o = Admission.ResourceUnavailable ∨ o = Admission.ProbeInitFailure ∨
      o = Admission.AllocationFailure := by
  cases o <;> simp [Admission.fatal]

theorem first_fatal_status_ne_zero (cs : List dirent) :
    first_fatal_status cs ≠ 0 ↔ ∃ d ∈ cs, (admission d.probe).fatal = true := by
  induction cs with
  | nil => simp [first_fatal_status]
  | cons d rest ih =>
    by_cases hf : (admission d.probe).fatal = true
    · have : (admission d.probe).status ≠ 0 := ((status_fatal _).mpr hf).1
      simp [first_fatal_status, hf, this]
    · simp [first_fatal_status, hf, ih]

/-- C7, as stated, fails. An event file that cannot be opened makes
`store_entries` return 1, with no allocation failure anywhere, and the admitted
file listed after it is not processed: nothing is allocated at `5` and the
list stays empty. -/
theorem store_entries_stops_on_open_failure :
    (add_new_entry Mem.empty unopenable_file.probe).map (fun r => r.2) = some 1 ∧
    (store_entries Mem.empty (some [unopenable_file, admitted_file 5])).map
      (fun r => (r.2, r.1.root_entry, r.1.heap 5)) = some (1, none, none) := by
  decide

/-- C7, amended. With the directory opened and `malloc` giving distinct
addresses, `store_entries` on the empty list returns a non-zero status exactly
when some event file cannot be opened, cannot be attached to by the probe, or
meets an allocation failure; the status is the one of the first such file, and
the list built is the ring of the files admitted before it, in order: a file
that the capability probe rejects is skipped and the files after it are still
processed, while no file after the first fatal one is. -/
theorem enumeration_status (ds : List dirent)
    (hnd : ((candidates ds).filterMap admitted_addr).Nodup) :
    ∃ m st, store_entries Mem.empty (some ds) = some (m, st) ∧
      (st ≠ 0 ↔ ∃ d ∈ candidates ds,
        admission d.probe = Admission.ResourceUnavailable ∨
        admission d.probe = Admission.ProbeInitFailure ∨
        admission d.probe = Admission.AllocationFailure) ∧
      st = first_fatal_status (candidates ds) ∧
      IsRing m (admitted_before_fatal (candidates ds)) := by
  obtain ⟨m, hm, hring⟩ := store_loop_ring ds Mem.empty [] ((IsRing.nil_iff _).mpr rfl)
    (fun _ _ => rfl) hnd
  refine ⟨m, _, hm, ?_, rfl, by simpa using hring⟩
  rw [first_fatal_status_ne_zero]
  constructor
  · rintro ⟨d, hd, hf⟩
    exact ⟨d, hd, (fatal_iff _).mp hf⟩
  · rintro ⟨d, hd, hf⟩
    exact ⟨d, hd, (fatal_iff _).mpr hf⟩

theorem enumeration_status_witness :
    ((candidates sample_dir).filterMap admitted_addr).Nodup ∧
    first_fatal_status (candidates sample_dir) = 1 ∧
    admitted_before_fatal (candidates sample_dir) = [1, 2] ∧
    ∃ m st, store_entries Mem.empty (some sample_dir) = some (m, st) ∧
      (st ≠ 0 ↔ ∃ d ∈ candidates sample_dir,
        admission d.probe = Admission.ResourceUnavailable ∨
        admission d.probe = Admission.ProbeInitFailure ∨
        admission d.probe = Admission.AllocationFailure) ∧
      st = first_fatal_status (candidates sample_dir) ∧
      IsRing m (admitted_before_fatal (candidates sample_dir)) :=
  ⟨by decide, by decide, by decide, enumeration_status sample_dir (by decide)⟩

/-! ## Emission -/

/-- C8, as stated, fails. A pass whose read reports `Synced` emits the record
left by the catch-up read when its category is not `EV_SYN`. -/
theorem synced_pass_emits :
    (⟨1, 30, 1⟩ : input_event).type ≠ EV_SYN ∧
    (poller_step ring123 (some 1) ⟨ReadStatus.Synced, ⟨0, 0, 0⟩, ⟨1, 30, 1⟩⟩).map
      (fun r => r.emitted) = some (some ⟨1, 30, 1⟩) := by
  decide

/-- C8, amended. A pass of the event loop emits the record `x` exactly when the
cursor is set, the category of `x` is not `EV_SYN`, and either the read
reported `Success` and `x` is the record read, or it reported `Synced` and `x`
is the record left by the catch-up read; a pass whose read reports `NoData` or
`Disconnected` emits nothing. -/
theorem emission_filter (m : Mem) (cur : Option Nat) (inp : PollInput) (r : PollResult)
    (h : poller_step m cur inp = some r) :
    (∀ x, r.emitted = some x ↔ cur ≠ none ∧ x.type ≠ EV_SYN ∧
      ((inp.status = ReadStatus.Success ∧ x = inp.ev) ∨
       (inp.status = ReadStatus.Synced ∧ x = inp.sync_ev))) ∧
    (inp.status = ReadStatus.NoData ∨ inp.status = ReadStatus.Disconnected →
      r.emitted = none) := by
  cases cur with
  | none =>
    simp only [poller_step, Option.some.injEq] at h
    subst h
    simp
  | some c =>
    cases hc : m.heap c with
    | none => simp [poller_step, hc] at h
    | some e =>
      cases hst : inp.status with
      | Unexpected => simp [poller_step, hc, hst] at h
      | Synced =>
        simp only [poller_step, hc, hst, Option.map_eq_some'] at h
        obtain ⟨a, _, rfl⟩ := h
        refine ⟨fun x => ?_, by simp⟩
        by_cases ht : inp.sync_ev.type = EV_SYN
        · simp only [ne_eq, ht, not_true_eq_false, if_false, reduceCtorEq, false_and, false_or,
            not_false_eq_true, true_and, false_iff, not_and]
          intro hx hxe
          exact hx (hxe ▸ ht)
        · simp only [ne_eq, ht, not_false_eq_true, if_true, Option.some.injEq, reduceCtorEq,
            false_and, false_or, true_and]
          exact ⟨fun hx => ⟨hx ▸ ht, hx.symm⟩, fun hx => hx.2.symm⟩
      | Success =>
        simp only [poller_step, hc, hst, Option.map_eq_some'] at h
        obtain ⟨a, _, rfl⟩ := h
        refine ⟨fun x => ?_, by simp⟩
        by_cases ht : inp.ev.type = EV_SYN
        · simp only [ne_eq, ht, not_true_eq_false, if_false, reduceCtorEq, false_and, or_false,
            not_false_eq_true, true_and, false_iff, not_and]
          intro hx hxe
          exact hx (hxe ▸ ht)
        · simp only [ne_eq, ht, not_false_eq_true, if_true, Option.some.injEq, reduceCtorEq,
            false_and, or_false, true_and]
          exact ⟨fun hx => ⟨hx ▸ ht, hx.symm⟩, fun hx => hx.2.symm⟩
      | NoData =>
        simp only [poller_step, hc, hst, Option.map_eq_some'] at h
        obtain ⟨a, _, rfl⟩ := h
        simp
      | Disconnected =>
        simp only [poller_step, hc, hst] at h
        cases hm : mark_dead m c with
        | none => simp [hm] at h
        | some p =>
          obtain ⟨m1, c1⟩ := p
          cases c1 with
          | none =>
            simp only [hm, Option.some.injEq] at h
            subst h
            simp
          | some c1 =>
            simp only [hm, Option.map_eq_some'] at h
            obtain ⟨a, _, rfl⟩ := h
            simp

theorem emission_filter_witness :
    poller_step ring123 (some 1) ⟨ReadStatus.Success, ⟨1, 30, 1⟩, ⟨0, 0, 0⟩⟩ =
      some ⟨ring123, some 2, some ⟨1, 30, 1⟩⟩ ∧
    (∀ x, (some ⟨1, 30, 1⟩ : Option input_event) = some x ↔
      (some 1 : Option Nat) ≠ none ∧ x.type ≠ EV_SYN ∧
      ((ReadStatus.Success = ReadStatus.Success ∧ x = ⟨1, 30, 1⟩) ∨
       (ReadStatus.Success = ReadStatus.Synced ∧ x = ⟨0, 0, 0⟩))) ∧
    (ReadStatus.Success = ReadStatus.NoData ∨ ReadStatus.Success = ReadStatus.Disconnected →
      (some ⟨1, 30, 1⟩ : Option input_event) = none) :=
  ⟨rfl, emission_filter ring123 (some 1) ⟨ReadStatus.Success, ⟨1, 30, 1⟩, ⟨0, 0, 0⟩⟩
    ⟨ring123, some 2, some ⟨1, 30, 1⟩⟩ rfl⟩

end Spynput
